import Mathlib

/-!
Verification development for the pymarc `Record` MARC 21 codec
(`src/pymarc/record.py`).

Byte buffers are modelled as `List Nat` (each element a byte value 0..255);
Python `str` values are modelled as `List Nat` of Unicode code points.
Python slices, `str.split`, `int(...)`, `%0Nd` formatting, the UTF-8 and
Latin-1 codecs and ASCII decoding are modelled explicitly below.

The repository ships only `record.py`; the `Field`, `Leader`, `marc8`
and `exceptions` modules it imports are not part of the sources, so the
few facts needed about them (field serialization, MARC-8 translation,
structural field equality) are modelled from the spec and marked as such.

Scope notes: claims are settled at the decoder's `to_unicode=True` and
`utf8_handling="strict"` settings (the defaults, and the settings all
claims quantify over); `int(...)` is modelled for an optional sign
followed by ASCII digits (the only shapes arising in MARC buffers);
`str.isdigit` is modelled for ASCII digits.
-/

namespace Pymarc

/-- Python slice bound: negative indices count from the end, clamped at 0. -/
def pyBound (n : Nat) (i : Int) : Nat :=
  if i < 0 then (i + n).toNat else i.toNat

/-- Nat-indexed slice `l[a:b]` (used where indices are provably nonnegative). -/
def sliceN (l : List Nat) (a b : Nat) : List Nat :=
  (l.take b).drop a

/-- Python slice `l[a:b]` with Int indices. -/
def pySlice (l : List Nat) (a b : Int) : List Nat :=
  sliceN l (pyBound l.length a) (pyBound l.length b)

/-- Python `bytes.split(sep)` / `str.split(sep)` for a single-element separator. -/
def pySplit (sep : Nat) : List Nat → List (List Nat)
  | [] => [[]]
  | b :: rest =>
    if b = sep then [] :: pySplit sep rest
    else
      match pySplit sep rest with
      | h :: t => (b :: h) :: t
      | [] => [[b]]

/-- Whether a code point is an ASCII decimal digit. -/
def isDigitCp (c : Nat) : Bool :=
  decide (0x30 ≤ c ∧ c ≤ 0x39)

/-- Python `str.isdigit` (modelled for ASCII digits). -/
def pyIsdigit (s : List Nat) : Bool :=
  !s.isEmpty && s.all isDigitCp

/-- Python `str` lexicographic `<` on code points. -/
def strLt : List Nat → List Nat → Bool
  | [], [] => false
  | [], _ :: _ => true
  | _ :: _, [] => false
  | a :: as', b :: bs' =>
    if a < b then true
    else if b < a then false
    else strLt as' bs'

/-- Numeric value of a digit string (most significant first). -/
def parseNat (s : List Nat) : Nat :=
  s.foldl (fun a d => 10 * a + (d - 0x30)) 0

/-- Whether every code point of `s` is an ASCII digit. -/
def allDigits (s : List Nat) : Bool :=
  s.all isDigitCp

/-- Python `int(...)` on a nonempty all-digit string. -/
def parseNatDigits (s : List Nat) : Option Nat :=
  if s ≠ [] ∧ allDigits s = true then some (parseNat s) else none

/-- Python `int(...)` on a string or bytes: optional sign then digits
(whitespace and underscore forms are not modelled; they do not arise in
MARC buffers). -/
def parseDec (s : List Nat) : Option Int :=
  match s with
  | [] => none
  | d :: rest =>
    if d = 0x2D then (parseNatDigits rest).map fun n => -(n : Int)
    else if d = 0x2B then (parseNatDigits rest).map fun n => (n : Int)
    else (parseNatDigits (d :: rest)).map fun n => (n : Int)

/-- Decimal digits of `n`, most significant first, via explicit fuel
(kernel-reducible). -/
def natDigitsF : Nat → Nat → List Nat
  | 0, _ => []
  | fuel + 1, n =>
    if n < 10 then [0x30 + n]
    else natDigitsF fuel (n / 10) ++ [0x30 + n % 10]

/-- Decimal digits of `n`, most significant first. -/
def natDigits (n : Nat) : List Nat :=
  natDigitsF (n + 1) n

/-- Python `"%0wd" % n`: decimal digits left-padded with zeros to width `w`
(wider when `n` needs more digits; never truncated). -/
def fmtZ (w n : Nat) : List Nat :=
  List.replicate (w - (natDigits n).length) 0x30 ++ natDigits n

/-- Python `"%3s" % s`: left-padded with spaces to width 3 (never truncated). -/
def padSpace3 (s : List Nat) : List Nat :=
  List.replicate (3 - s.length) 0x20 ++ s

/-- Whether a code point is a Unicode scalar value (encodable in UTF-8). -/
def validScalar (c : Nat) : Prop :=
  c < 0x110000 ∧ ¬(0xD800 ≤ c ∧ c ≤ 0xDFFF)

instance (c : Nat) : Decidable (validScalar c) := by
  unfold validScalar; infer_instance

/-- UTF-8 encoding of a single scalar value. -/
def utf8EncodeChar (c : Nat) : List Nat :=
  if c < 0x80 then [c]
  else if c < 0x800 then [0xC0 + c / 64, 0x80 + c % 64]
  else if c < 0x10000 then
    [0xE0 + c / 4096, 0x80 + c / 64 % 64, 0x80 + c % 64]
  else
    [0xF0 + c / 262144, 0x80 + c / 4096 % 64, 0x80 + c / 64 % 64, 0x80 + c % 64]

/-- Whether a byte is a UTF-8 continuation byte. -/
def isCont (b : Nat) : Bool :=
  decide (0x80 ≤ b ∧ b ≤ 0xBF)

/-- Strict UTF-8 decoding of a byte list to code points (rejects truncated
and overlong forms, surrogates, and values beyond U+10FFFF), mirroring
Python `bytes.decode("utf-8")` with the default strict error policy. -/
def utf8Decode : List Nat → Option (List Nat)
  | [] => some []
  | b :: rest =>
    if b < 0x80 then (utf8Decode rest).map (b :: ·)
    else if b < 0xC2 then none
    else if b ≤ 0xDF then
      match rest with
      | b1 :: rest1 =>
        if isCont b1 then (utf8Decode rest1).map (fun t => ((b - 0xC0) * 64 + (b1 - 0x80)) :: t)
        else none
      | [] => none
    else if b ≤ 0xEF then
      match rest with
      | b1 :: b2 :: rest2 =>
        if isCont b1 && isCont b2 then
          let v := (b - 0xE0) * 4096 + (b1 - 0x80) * 64 + (b2 - 0x80)
          if 0x800 ≤ v ∧ ¬(0xD800 ≤ v ∧ v ≤ 0xDFFF) then
            (utf8Decode rest2).map (v :: ·)
          else none
        else none
      | _ => none
    else if b ≤ 0xF4 then
      match rest with
      | b1 :: b2 :: b3 :: rest3 =>
        if isCont b1 && isCont b2 && isCont b3 then
          let v := (b - 0xF0) * 262144 + (b1 - 0x80) * 4096 + (b2 - 0x80) * 64 + (b3 - 0x80)
          if 0x10000 ≤ v ∧ v < 0x110000 then
            (utf8Decode rest3).map (v :: ·)
          else none
        else none
      | _ => none
    else none

/-- Latin-1 (iso8859-1) decoding: each byte is its own code point. -/
def latin1ToCp (bs : List Nat) : List Nat := bs

/-- The two charset names the claims exercise for the codec's
`encoding` option. -/
inductive Enc
  | utf8
  | latin1
deriving DecidableEq

/-- Encoding of one code point in the given charset; `none` models a Python
`UnicodeEncodeError` (Latin-1 rejects code points above U+00FF, UTF-8
rejects surrogates and values beyond U+10FFFF). -/
def encodeChar (e : Enc) (c : Nat) : Option (List Nat) :=
  match e with
  | .latin1 => if c < 0x100 then some [c] else none
  | .utf8 => if validScalar c then some (utf8EncodeChar c) else none

/-- Encoding of a string (code point list) in the given charset. -/
def encodeText (e : Enc) : List Nat → Option (List Nat)
  | [] => some []
  | c :: rest =>
    match encodeChar e c, encodeText e rest with
    | some bs, some rs => some (bs ++ rs)
    | _, _ => none

/-- MARC-8 combining-mark table entry for a cleared-high-bit value in the
given graphic set (only the ANSEL acute used by the spec's scenarios is
tabulated; see `marc8Table`). -/
def marc8IsCombining (sid v : Nat) : Bool :=
  sid == 0x45 && v == 0x61

/-- Modelled from the spec: the MARC-8 translation table, keyed by graphic
set id and the byte with its high bit cleared. Basic Latin (set 0x42) maps
a byte to itself; the ANSEL (set 0x45) acute accent 0xE1 maps to the
combining acute U+0301 (spec scenario S5); all other codes are unmapped and
emit U+FFFD as the spec prescribes. -/
def marc8Table (sid v : Nat) : Nat :=
  if sid == 0x42 then v
  else if sid == 0x45 && v == 0x61 then 0x301
  else 0xFFFD

/-- Modelled from the spec: the stateful MARC-8 translation loop of the
absent `pymarc/marc8.py`. State is the pair of designated graphic sets
`g0`/`g1` plus the pending combining marks, which the spec requires to be
emitted after their base character (or flushed at end of input). Escape
sequences (prefix 0x1B) redesignate the sets per the spec's list; the EACC
set (0x31) consumes three bytes per character. -/
def marc8Go (g0 g1 : Nat) (pending : List Nat) : List Nat → List Nat
  | [] => pending
  | b :: rest =>
    if b = 0x1B then
      match rest with
      | [] => pending
      | x :: rest2 =>
        if x = 0x28 ∨ x = 0x2C then
          match rest2 with
          | y :: rest3 => marc8Go y g1 pending rest3
          | [] => pending
        else if x = 0x29 ∨ x = 0x2D then
          match rest2 with
          | y :: rest3 => marc8Go g0 y pending rest3
          | [] => pending
        else if x = 0x24 then
          match rest2 with
          | y :: rest3 =>
            if y = 0x2C then
              match rest3 with
              | z :: rest4 => marc8Go g0 z pending rest4
              | [] => pending
            else marc8Go y g1 pending rest3
          | [] => pending
        else if x = 0x73 then marc8Go 0x42 g1 pending rest2
        else marc8Go x g1 pending rest2
    else
      let sid := if b < 0x80 then g0 else g1
      let v := b % 0x80
      if sid == 0x31 then
        match rest with
        | _ :: _ :: rest2 => 0xFFFD :: (pending ++ marc8Go g0 g1 [] rest2)
        | _ => 0xFFFD :: pending
      else if marc8IsCombining sid v then
        marc8Go g0 g1 (pending ++ [marc8Table sid v]) rest
      else
        marc8Table sid v :: (pending ++ marc8Go g0 g1 [] rest)

/-- Modelled from the spec: `marc8_to_unicode` of the absent
`pymarc/marc8.py`, a total function starting in the default state
G0 = Basic Latin (0x42), G1 = ANSEL (0x45). -/
def marc8_to_unicode (bs : List Nat) : List Nat :=
  marc8Go 0x42 0x45 [] bs

/-- The decoded field variants; `control` mirrors the tag/data control
field and `data` the indicators-plus-subfields data field produced by
`Record.decode_marc`. Modelled from the spec for the absent
`pymarc/field.py`: a data field stores its `(code, value)` subfield pairs
in order, and fields compare structurally. -/
inductive Field
  | control (tag : List Nat) (data : List Nat)
  | data (tag : List Nat) (ind1 ind2 : Nat) (subfields : List (Nat × List Nat))
deriving DecidableEq

/-- The tag of a field. -/
def Field.tag : Field → List Nat
  | .control t _ => t
  | .data t _ _ _ => t

/-- The in-memory record: a leader string, the ordered field list, and the
`force_utf8` flag stored by `Record.__init__`. -/
structure Record where
  leader : List Nat
  fields : List Field
  forceUtf8 : Bool
deriving DecidableEq

/-- Typed decode failures of `Record.decode_marc`; `unicodeDecodeError`,
`intParseError` and `indexError` model the untyped Python
`UnicodeDecodeError`, `ValueError` and `IndexError` escaping from it. -/
inductive DecodeError
  | unicodeDecodeError
  | recordLeaderInvalid
  | baseAddressNotFound
  | baseAddressInvalid
  | truncatedRecord
  | recordDirectoryInvalid
  | noFieldsFound
  | intParseError
  | indexError
deriving DecidableEq

/-- The non-fatal diagnostics `decode_marc` can emit: the
`BadSubfieldCodeWarning` and the three indicator-anomaly log warnings. -/
inductive Warning
  | badSubfieldCode
  | missingIndicators
  | oneIndicatorOnly
  | extraIndicators
deriving DecidableEq

/-- The result of a successful decode: the leader string and field list
populated on the record. -/
structure DecodedRecord where
  leader : List Nat
  fields : List Field
deriving DecidableEq

deriving instance DecidableEq for Except

/-- Python `bytes.decode("ascii")`: succeeds iff every byte is below 0x80. -/
def asciiDecode (bs : List Nat) : Except DecodeError (List Nat) :=
  if bs.all (fun b => decide (b < 0x80)) then .ok bs else .error .unicodeDecodeError

/-- Error-propagating sequencing used to model Python exception flow:
an exception escaping a subexpression aborts the enclosing decode. -/
def exBind {α β : Type} (x : Except DecodeError α)
    (f : α → Except DecodeError β) : Except DecodeError β :=
  match x with
  | .error e => .error e
  | .ok a => f a

@[simp]
theorem exBind_ok {α β : Type} (a : α) (f : α → Except DecodeError β) :
    exBind (.ok a) f = f a := rfl

@[simp]
theorem exBind_error {α β : Type} (e : DecodeError) (f : α → Except DecodeError β) :
    exBind (.error e) f = .error e := rfl

/-- Python `bytes.decode(encoding)` for the two modelled charsets with the
strict error policy. -/
def decodeText (e : Enc) (bs : List Nat) : Except DecodeError (List Nat) :=
  match e with
  | .latin1 => .ok (latin1ToCp bs)
  | .utf8 =>
    match utf8Decode bs with
    | some t => .ok t
    | none => .error .unicodeDecodeError

/-- Model of Python `unicodedata.normalize("NFKD", ·)` on code points,
restricted to a table of the characters the claims exercise; code points
without a table entry are returned unchanged (exact for ASCII, whose NFKD
is the identity). -/
def nfkd (s : List Nat) : List Nat :=
  (s.map fun c =>
    if c = 0xE1 then [0x61, 0x301]
    else if c = 0xE9 then [0x65, 0x301]
    else if c = 0xC1 then [0x41, 0x301]
    else if c = 0xB2 then [0x32]
    else [c]).flatten

/-- The `normalize_subfield_code` helper of `record.py`: decode the chunk
as UTF-8 (`skip_bytes` becomes the UTF-8 length of the first character) or
fall back to Latin-1 (`skip_bytes` stays 1), apply NFKD, drop non-ASCII
code points, and return the first remaining code point with `skip_bytes`;
`none` models the `IndexError` Python raises when nothing remains. -/
def normalize_subfield_code (subfield : List Nat) : Option (Nat × Nat) :=
  let p : List Nat × Nat :=
    match utf8Decode subfield with
    | some t =>
      (t, match t with
          | [] => 1
          | c :: _ => (utf8EncodeChar c).length)
    | none => (latin1ToCp subfield, 1)
  match (nfkd p.1).filter (fun c => decide (c < 0x80)) with
  | [] => none
  | c :: _ => some (c, p.2)

/-- The indicator-repair block of `decode_marc` (lines 322-337): ASCII
decode of the pre-first-0x1F chunk, then blank-fill or truncate to two
indicators, logging a warning for each anomaly. -/
def decodeIndicators (subs0 : List Nat) : Except DecodeError ((Nat × Nat) × List Warning) :=
  exBind (asciiDecode subs0) fun s =>
    match s with
    | [] => .ok ((0x20, 0x20), [.missingIndicators])
    | [a] => .ok ((a, 0x20), [.oneIndicatorOnly])
    | [a, b] => .ok ((a, b), [])
    | a :: b :: _ :: _ => .ok ((a, b), [.extraIndicators])

/-- The code extraction for one subfield chunk (lines 340-347): an ASCII
first byte is the code with one byte consumed and no warning, otherwise a
`BadSubfieldCode` warning is emitted and `normalize_subfield_code` supplies
the code and the consumed-byte count (its `IndexError` propagating). -/
def subfieldCodeStep (chunk : List Nat) : Except DecodeError (Nat × Nat × List Warning) :=
  match chunk with
  | [] => .error .indexError
  | c :: _ =>
    if c < 0x80 then .ok (c, 1, [])
    else
      match normalize_subfield_code chunk with
      | none => .error .indexError
      | some (code, skip) => .ok (code, skip, [Warning.badSubfieldCode])

/-- The subfield loop of `decode_marc` (lines 339-358): empty chunks are
skipped, `subfieldCodeStep` yields code, consumed bytes and warnings, and
the remaining bytes of the chunk are decoded by the supplied text
decoder. -/
def decodeSubfields (dec : List Nat → Except DecodeError (List Nat)) :
    List (List Nat) → Except DecodeError (List (Nat × List Nat) × List Warning)
  | [] => .ok ([], [])
  | chunk :: rest =>
    if chunk.isEmpty then decodeSubfields dec rest
    else
      exBind (subfieldCodeStep chunk) fun cs =>
        exBind (dec (chunk.drop cs.2.1)) fun v =>
          exBind (decodeSubfields dec rest) fun r =>
            .ok ((cs.1, v) :: r.1, cs.2.2 ++ r.2)

/-- The per-subfield value decoder chosen by `decode_marc` (lines 350-356):
UTF-8 when leader byte 9 is `a` or the call's `force_utf8` parameter is
set, MARC-8 translation when the chosen encoding is iso8859-1, and the
chosen encoding itself otherwise. -/
def subfieldValueDecode (l9a paramF : Bool) (encUsed : Enc) (bs : List Nat) :
    Except DecodeError (List Nat) :=
  if l9a || paramF then decodeText .utf8 bs
  else if encUsed = .latin1 then .ok (marc8_to_unicode bs)
  else decodeText encUsed bs

/-- The tag 010 boundary used by the control-field test `entry_tag < "010"`. -/
def tag010 : List Nat := [0x30, 0x31, 0x30]

/-- The per-entry field construction of `decode_marc` (lines 303-370),
given the directory-entry tag and the field bytes with their trailing
`END_OF_FIELD` already stripped. -/
def decodeFieldData (encUsed : Enc) (l9a paramF : Bool) (entry_tag : List Nat)
    (entry_data : List Nat) : Except DecodeError (Field × List Warning) :=
  if strLt entry_tag tag010 && pyIsdigit entry_tag then
    exBind (decodeText encUsed entry_data) fun d =>
      .ok (.control entry_tag d, [])
  else
    let subs := pySplit 0x1F entry_data
    exBind (decodeIndicators (subs.headD [])) fun iw =>
      exBind (decodeSubfields (subfieldValueDecode l9a paramF encUsed) subs.tail) fun sw =>
        .ok (.data entry_tag iw.1.1 iw.1.2 sw.1, iw.2 ++ sw.2)

/-- Python `int(...)` raising `ValueError` when the string does not parse. -/
def parseIntOr (s : List Nat) : Except DecodeError Int :=
  match parseDec s with
  | none => .error .intParseError
  | some v => .ok v

/-- One iteration of the directory loop of `decode_marc` (lines 289-302):
slice the 12-byte entry, parse tag, length and offset, and slice the field
bytes out of the buffer (dropping the trailing `END_OF_FIELD`). -/
def decodeEntry (marc : List Nat) (base : Int) (encUsed : Enc) (l9a paramF : Bool)
    (entry : List Nat) : Except DecodeError (Field × List Warning) :=
  let entry_tag := sliceN entry 0 3
  exBind (parseIntOr (sliceN entry 3 7)) fun entry_length =>
    exBind (parseIntOr (sliceN entry 7 12)) fun entry_offset =>
      let entry_data :=
        pySlice marc (base + entry_offset) (base + entry_offset + entry_length - 1)
      decodeFieldData encUsed l9a paramF entry_tag entry_data

/-- The `while field_count < field_total` loop of `decode_marc`, recursing
on the number of remaining entries while tracking `field_count`. -/
def decodeFieldsGo (marc : List Nat) (base : Int) (encUsed : Enc) (l9a paramF : Bool)
    (directory : List Nat) (field_count : Nat) :
    Nat → Except DecodeError (List Field × List Warning)
  | 0 => .ok ([], [])
  | r + 1 =>
    let entry := sliceN directory (12 * field_count) (12 * field_count + 12)
    exBind (decodeEntry marc base encUsed l9a paramF entry) fun fw =>
      exBind (decodeFieldsGo marc base encUsed l9a paramF directory (field_count + 1) r)
        fun rs => .ok (fw.1 :: rs.1, fw.2 ++ rs.2)

/-- Everything `decode_marc` does after the leader has been extracted and
length-checked: encoding choice, base address and declared-length checks,
directory extraction and the field loop (lines 266-375). -/
def decodeBody (marc : List Nat) (leader : List Nat) (selfF paramF : Bool)
    (encoding : Enc) : Except DecodeError (DecodedRecord × List Warning) :=
  let l9a := leader.getD 9 0 == 0x61
  let encUsed := if l9a || selfF then Enc.utf8 else encoding
  exBind (parseIntOr (sliceN marc 12 17)) fun base_address =>
    if base_address ≤ 0 then .error .baseAddressNotFound
    else if (marc.length : Int) ≤ base_address then .error .baseAddressInvalid
    else
      exBind (parseIntOr (sliceN leader 0 5)) fun declared =>
        if (marc.length : Int) < declared then .error .truncatedRecord
        else
          exBind (asciiDecode (pySlice marc 24 (base_address - 1))) fun directory =>
            if directory.length % 12 ≠ 0 then .error .recordDirectoryInvalid
            else
              let field_total := directory.length / 12
              exBind (decodeFieldsGo marc base_address encUsed l9a paramF directory 0
                  field_total) fun fw =>
                if field_total = 0 then .error .noFieldsFound
                else .ok (⟨leader, fw.1⟩, fw.2)

/-- `Record.decode_marc` (lines 247-375) at `to_unicode=True` and strict
UTF-8 handling: `selfF` is the record's `force_utf8` attribute consulted at
line 266, `paramF` the method's own `force_utf8` parameter consulted at
line 351, `encoding` the caller-supplied default encoding. -/
def decode_marc (marc : List Nat) (selfF paramF : Bool) (encoding : Enc) :
    Except DecodeError (DecodedRecord × List Warning) :=
  exBind (asciiDecode (sliceN marc 0 24)) fun leader =>
    if leader.length ≠ 24 then .error .recordLeaderInvalid
    else decodeBody marc leader selfF paramF encoding

/-- Modelled from the spec: `Field.as_marc` of the absent
`pymarc/field.py`. A control field serializes as its data followed by
`END_OF_FIELD` (0x1E); a data field as the two indicators, then
`SUBFIELD_INDICATOR` (0x1F), code and value for each subfield in order,
then `END_OF_FIELD`; the whole string is encoded in the caller's charset. -/
def fieldAsMarc (e : Enc) : Field → Option (List Nat)
  | .control _ d => encodeText e (d ++ [0x1E])
  | .data _ i1 i2 subs =>
    encodeText e ([i1, i2] ++ (subs.map fun p => 0x1F :: p.1 :: p.2).flatten ++ [0x1E])

/-- The directory tag bytes built by `as_marc` (lines 395-398): all-digit
tags are rendered `"%03d" % int(tag)`, others `"%03s" % tag`, encoded in
the record's charset. -/
def dirTagBytes (e : Enc) (tag : List Nat) : Option (List Nat) :=
  if pyIsdigit tag then some (fmtZ 3 (parseNat tag))
  else encodeText e (padSpace3 tag)

/-- The field/directory accumulation loop of `as_marc` (lines 392-401),
tracking the running offset. -/
def asMarcGo (e : Enc) (offset : Nat) : List Field → Option (List Nat × List Nat)
  | [] => some ([], [])
  | f :: rest =>
    (fieldAsMarc e f).bind fun fd =>
      (dirTagBytes e f.tag).bind fun dtag =>
        (asMarcGo e (offset + fd.length) rest).bind fun r =>
          some (fd ++ r.1, dtag ++ fmtZ 4 fd.length ++ fmtZ 5 offset ++ r.2)

/-- The output charset `as_marc` selects (lines 387-390). -/
def encOf (r : Record) : Enc :=
  if r.leader.getD 9 0 == 0x61 || r.forceUtf8 then Enc.utf8 else Enc.latin1

/-- `Record.as_marc` (lines 377-425): serialize every field, build the
directory, terminate directory and field data, recompute record length and
base address into the leader, and concatenate. `none` models a Python
`UnicodeEncodeError` from an unencodable character. -/
def as_marc (r : Record) : Option (List Nat) :=
  let e := encOf r
  (asMarcGo e 0 r.fields).bind fun fd =>
    let directory := fd.2 ++ [0x1E]
    let fieldsAll := fd.1 ++ [0x1D]
    let base_address := 24 + directory.length
    let record_length := base_address + fieldsAll.length
    let strleader :=
      fmtZ 5 record_length ++ sliceN r.leader 5 12 ++ fmtZ 5 base_address ++ r.leader.drop 17
    (encodeText e strleader).bind fun leaderB =>
      some (leaderB ++ directory ++ fieldsAll)

/-- Python `list.remove(f)`: drop the first occurrence, `none` if absent. -/
def listRemove (l : List Field) (f : Field) : Option (List Field) :=
  match l with
  | [] => none
  | g :: rest =>
    if g = f then some rest
    else (listRemove rest f).map (g :: ·)

/-- `Record.remove_field` (lines 207-213): remove each argument in turn;
the Bool records whether `FieldNotFound` was raised, and the returned list
is the record's field list at that moment (removals already performed are
kept). -/
def remove_field (fields : List Field) (args : List Field) : List Field × Bool :=
  match args with
  | [] => (fields, false)
  | f :: rest =>
    match listRemove fields f with
    | some l' => remove_field l' rest
    | none => (fields, true)

/-- Sequential removal of a list of fields, `none` as soon as one is
absent (used to state what `remove_field` has done before it raises). -/
def chainRemove (l : List Field) (pre : List Field) : Option (List Field) :=
  pre.foldlM listRemove l

/-- The `mode == "ordered"` walk of `Record._sort_fields` (lines 181-205):
insert before the first non-digit-tag field or the first field with a
larger numeric tag, else append at the end. -/
def sortFieldsOrdered (tagv : Nat) (f : Field) : List Field → List Field
  | [] => [f]
  | g :: rest =>
    if !pyIsdigit g.tag then f :: g :: rest
    else if tagv < parseNat g.tag then f :: g :: rest
    else g :: sortFieldsOrdered tagv f rest

/-- `Record.add_ordered_field` (lines 169-179) for a single field: append
when the record is empty or the tag is not all digits, else insert via
`_sort_fields` in ordered mode. -/
def add_ordered_field (fields : List Field) (f : Field) : List Field :=
  if fields.isEmpty || !pyIsdigit f.tag then fields ++ [f]
  else sortFieldsOrdered (parseNat f.tag) f fields

/-! ### Slicing lemmas -/

theorem sliceN_zero (l : List Nat) (b : Nat) : sliceN l 0 b = l.take b := by
  simp [sliceN]

theorem sliceN_append_left (xs ys : List Nat) (a b : Nat) (h : b ≤ xs.length) :
    sliceN (xs ++ ys) a b = sliceN xs a b := by
  simp [sliceN, List.take_append_of_le_length h]

theorem sliceN_append_right (xs ys : List Nat) (a b : Nat) (h : xs.length ≤ a) :
    sliceN (xs ++ ys) a b = sliceN ys (a - xs.length) (b - xs.length) := by
  unfold sliceN
  rw [List.take_append_eq_append_take, List.drop_append_eq_append_drop]
  have hlt : (List.take b xs).length ≤ a := by
    simp only [List.length_take]
    omega
  rw [List.drop_eq_nil_of_le hlt]
  rcases le_or_lt xs.length b with hb | hb
  · have hl : (List.take b xs).length = xs.length := by
      simp only [List.length_take]
      omega
    rw [hl, List.nil_append]
  · have h1 : b - xs.length = 0 := by omega
    rw [h1]
    simp

theorem sliceN_full_prefix (xs ys : List Nat) : sliceN (xs ++ ys) 0 xs.length = xs := by
  simp [sliceN, List.take_left]

theorem sliceN_take_of_prefix (xs ys : List Nat) (m : Nat) :
    sliceN (xs ++ ys) xs.length (xs.length + m) = ys.take m := by
  rw [sliceN_append_right xs ys _ _ (le_refl _)]
  simp [sliceN]

theorem pyBound_nonneg (n : Nat) (i : Int) (h : 0 ≤ i) : pyBound n i = i.toNat := by
  unfold pyBound
  rw [if_neg (by omega)]

theorem pySlice_nonneg (l : List Nat) (a b : Int) (ha : 0 ≤ a) (hb : 0 ≤ b) :
    pySlice l a b = sliceN l a.toNat b.toNat := by
  unfold pySlice
  rw [pyBound_nonneg _ _ ha, pyBound_nonneg _ _ hb]

theorem sliceN_length (l : List Nat) (a b : Nat) (h : b ≤ l.length) :
    (sliceN l a b).length = b - a := by
  simp [sliceN, List.length_take]
  omega

/-! ### Splitting lemmas -/

theorem pySplit_ne_nil (sep : Nat) (l : List Nat) : pySplit sep l ≠ [] := by
  induction l with
  | nil => simp [pySplit]
  | cons b rest ih =>
    by_cases h : b = sep
    · simp [pySplit, h]
    · simp only [pySplit, if_neg h]
      rcases hr : pySplit sep rest with _ | ⟨h0, t⟩
      · exact absurd hr ih
      · simp

theorem pySplit_sep_free (sep : Nat) (l : List Nat) (h : sep ∉ l) :
    pySplit sep l = [l] := by
  induction l with
  | nil => rfl
  | cons b rest ih =>
    have hb : b ≠ sep := by intro hc; exact h (hc ▸ List.mem_cons_self b rest)
    have hrest : sep ∉ rest := fun hc => h (List.mem_cons_of_mem b hc)
    simp only [pySplit, if_neg hb, ih hrest]

theorem pySplit_append_sep (sep : Nat) (a rest : List Nat) (h : sep ∉ a) :
    pySplit sep (a ++ sep :: rest) = a :: pySplit sep rest := by
  induction a with
  | nil => simp [pySplit]
  | cons b t ih =>
    have hb : b ≠ sep := by intro hc; exact h (hc ▸ List.mem_cons_self b t)
    have ht : sep ∉ t := fun hc => h (List.mem_cons_of_mem b hc)
    simp only [List.cons_append, pySplit, if_neg hb, List.append_eq]
    rw [ih ht]

/-! ### Decimal digits: formatting and parsing -/

theorem natDigitsF_irrel (f1 : Nat) : ∀ f2 n, n < f1 → n < f2 →
    natDigitsF f1 n = natDigitsF f2 n := by
  induction f1 with
  | zero => intro f2 n h1 _; omega
  | succ f1' ih =>
    intro f2 n h1 h2
    cases f2 with
    | zero => omega
    | succ f2' =>
      by_cases hn : n < 10
      · simp [natDigitsF, hn]
      · have hd : n / 10 < n := Nat.div_lt_self (by omega) (by omega)
        simp only [natDigitsF, if_neg hn]
        rw [ih f2' (n / 10) (by omega) (by omega)]

theorem natDigits_unfold (n : Nat) :
    natDigits n = if n < 10 then [0x30 + n] else natDigits (n / 10) ++ [0x30 + n % 10] := by
  by_cases hn : n < 10
  · simp [natDigits, natDigitsF, hn]
  · rw [if_neg hn]
    have h1 : natDigits n
        = if n < 10 then [0x30 + n] else natDigitsF n (n / 10) ++ [0x30 + n % 10] := rfl
    rw [h1, if_neg hn, natDigitsF_irrel n (n / 10 + 1) (n / 10) (by omega) (by omega)]
    rfl

theorem natDigits_ne_nil (n : Nat) : natDigits n ≠ [] := by
  rw [natDigits_unfold]
  by_cases hn : n < 10 <;> simp [hn]

theorem natDigits_mem (n : Nat) : ∀ d ∈ natDigits n, 0x30 ≤ d ∧ d ≤ 0x39 := by
  induction n using Nat.strong_induction_on with
  | _ n ih =>
    rw [natDigits_unfold]
    by_cases hn : n < 10
    · simp [hn]; omega
    · have hd : n / 10 < n := Nat.div_lt_self (by omega) (by omega)
      have hm : n % 10 < 10 := Nat.mod_lt _ (by omega)
      simp only [if_neg hn, List.mem_append, List.mem_singleton]
      rintro d (hdm | rfl)
      · exact ih _ hd d hdm
      · omega

theorem allDigits_natDigits (n : Nat) : allDigits (natDigits n) = true := by
  rw [allDigits, List.all_eq_true]
  intro d hd
  have := natDigits_mem n d hd
  simp only [isDigitCp, decide_eq_true_eq]
  omega

theorem parseNat_acc (l : List Nat) : ∀ a : Nat,
    l.foldl (fun x d => 10 * x + (d - 0x30)) a = a * 10 ^ l.length + parseNat l := by
  induction l with
  | nil => intro a; simp [parseNat]
  | cons d t ih =>
    intro a
    show t.foldl _ (10 * a + (d - 0x30)) = _
    rw [ih (10 * a + (d - 0x30))]
    have h2 : parseNat (d :: t) = (d - 0x30) * 10 ^ t.length + parseNat t := by
      show t.foldl _ (10 * 0 + (d - 0x30)) = _
      rw [ih (10 * 0 + (d - 0x30))]
      ring
    rw [h2]
    simp only [List.length_cons, pow_succ]
    ring

theorem parseNat_cons (d : Nat) (t : List Nat) :
    parseNat (d :: t) = (d - 0x30) * 10 ^ t.length + parseNat t := by
  show t.foldl _ (10 * 0 + (d - 0x30)) = _
  rw [parseNat_acc]
  ring

theorem parseNat_append (s t : List Nat) :
    parseNat (s ++ t) = parseNat s * 10 ^ t.length + parseNat t := by
  unfold parseNat
  rw [List.foldl_append]
  exact parseNat_acc t _

theorem parseNat_natDigits (n : Nat) : parseNat (natDigits n) = n := by
  induction n using Nat.strong_induction_on with
  | _ n ih =>
    rw [natDigits_unfold]
    by_cases hn : n < 10
    · simp [hn, parseNat_cons, parseNat]
    · have hd : n / 10 < n := Nat.div_lt_self (by omega) (by omega)
      rw [if_neg hn, parseNat_append, ih _ hd]
      have h1 : parseNat [0x30 + n % 10] = n % 10 := by
        simp [parseNat_cons, parseNat]
      rw [h1]
      simp only [List.length_singleton, pow_one]
      omega

theorem parseNat_replicate_zero (k : Nat) (t : List Nat) :
    parseNat (List.replicate k 0x30 ++ t) = parseNat t := by
  induction k with
  | zero => simp
  | succ k' ih =>
    rw [List.replicate_succ, List.cons_append, parseNat_cons, parseNat_append] at *
    simp only [List.length_append, List.length_replicate] at *
    omega

theorem parseNat_fmtZ (w n : Nat) : parseNat (fmtZ w n) = n := by
  rw [fmtZ, parseNat_replicate_zero, parseNat_natDigits]

theorem allDigits_fmtZ (w n : Nat) : allDigits (fmtZ w n) = true := by
  rw [fmtZ, allDigits, List.all_eq_true]
  intro d hd
  rcases List.mem_append.1 hd with hm | hm
  · rw [List.eq_of_mem_replicate hm]
    decide
  · have := natDigits_mem n d hm
    simp only [isDigitCp, decide_eq_true_eq]
    omega

theorem fmtZ_mem (w n : Nat) : ∀ c ∈ fmtZ w n, 0x30 ≤ c ∧ c ≤ 0x39 := by
  intro c hc
  rw [fmtZ] at hc
  rcases List.mem_append.1 hc with hm | hm
  · have := List.eq_of_mem_replicate hm
    omega
  · exact natDigits_mem _ c hm

theorem fmtZ_ne_nil (w n : Nat) : fmtZ w n ≠ [] := by
  rw [fmtZ]
  intro hc
  rcases List.append_eq_nil.mp hc with ⟨_, h2⟩
  exact natDigits_ne_nil n h2

theorem parseNatDigits_fmtZ (w n : Nat) : parseNatDigits (fmtZ w n) = some n := by
  rw [parseNatDigits, if_pos ⟨fmtZ_ne_nil w n, allDigits_fmtZ w n⟩, parseNat_fmtZ]

theorem parseDec_digits (s : List Nat) (hne : s ≠ []) (hd : allDigits s = true) :
    parseDec s = some ((parseNat s : Nat) : Int) := by
  cases s with
  | nil => exact absurd rfl hne
  | cons d t =>
    have hdd : isDigitCp d = true := by
      rw [allDigits, List.all_eq_true] at hd
      exact hd d (List.mem_cons_self d t)
    simp only [isDigitCp, decide_eq_true_eq] at hdd
    rw [parseDec, if_neg (by omega), if_neg (by omega), parseNatDigits, if_pos ⟨hne, hd⟩]
    rfl

theorem parseDec_fmtZ (w n : Nat) : parseDec (fmtZ w n) = some (n : Int) := by
  rw [parseDec_digits _ (fmtZ_ne_nil w n) (allDigits_fmtZ w n), parseNat_fmtZ]

theorem natDigits_length_le (k : Nat) : ∀ n, n < 10 ^ (k + 1) →
    (natDigits n).length ≤ k + 1 := by
  induction k with
  | zero =>
    intro n hn
    rw [natDigits_unfold, if_pos (by simpa using hn)]
    simp
  | succ k' ih =>
    intro n hn
    rw [natDigits_unfold]
    by_cases h10 : n < 10
    · rw [if_pos h10]
      simp
    · rw [if_neg h10]
      have hlt : n / 10 < 10 ^ (k' + 1) := by
        rw [Nat.div_lt_iff_lt_mul (by omega)]
        calc n < 10 ^ (k' + 1 + 1) := hn
        _ = 10 ^ (k' + 1) * 10 := by ring
      simpa using ih (n / 10) hlt

theorem natDigits_length_lb (k : Nat) : ∀ n, 10 ^ k ≤ n →
    k + 1 ≤ (natDigits n).length := by
  induction k with
  | zero =>
    intro n _
    have := natDigits_ne_nil n
    cases h : natDigits n <;> simp_all
  | succ k' ih =>
    intro n hn
    have h10 : ¬ n < 10 := by
      intro hc
      have h1 : (10:Nat) ≤ 10 ^ (k' + 1) := by
        calc (10:Nat) = 10 ^ 1 := (pow_one 10).symm
        _ ≤ 10 ^ (k' + 1) := Nat.pow_le_pow_right (by omega) (by omega)
      omega
    rw [natDigits_unfold, if_neg h10]
    have hdiv : 10 ^ k' ≤ n / 10 := by
      rw [Nat.le_div_iff_mul_le (by omega)]
      calc 10 ^ k' * 10 = 10 ^ (k' + 1) := by ring
      _ ≤ n := hn
    have := ih (n / 10) hdiv
    simp only [List.length_append, List.length_singleton]
    omega

theorem fmtZ_length (w n : Nat) :
    (fmtZ w n).length = max w (natDigits n).length := by
  simp only [fmtZ, List.length_append, List.length_replicate]
  omega

theorem fmtZ_length_of_lt (w n : Nat) (hw : 0 < w) (hn : n < 10 ^ w) :
    (fmtZ w n).length = w := by
  rw [fmtZ_length]
  have h1 : (natDigits n).length ≤ w := by
    have h2 := natDigits_length_le (w - 1) n (by
      have h3 : w - 1 + 1 = w := by omega
      rw [h3]; exact hn)
    omega
  omega

theorem parseNat_lt (s : List Nat) (hd : allDigits s = true) :
    parseNat s < 10 ^ s.length := by
  induction s with
  | nil => simp [parseNat]
  | cons d t ih =>
    rw [allDigits, List.all_eq_true] at hd
    have hdd : isDigitCp d = true := hd d (List.mem_cons_self d t)
    simp only [isDigitCp, decide_eq_true_eq] at hdd
    have ht : allDigits t = true := by
      rw [allDigits, List.all_eq_true]
      exact fun x hx => hd x (List.mem_cons_of_mem d hx)
    have hb := ih ht
    rw [parseNat_cons]
    have hds : d - 0x30 ≤ 9 := by omega
    have h1 : (d - 0x30) * 10 ^ t.length ≤ 9 * 10 ^ t.length :=
      Nat.mul_le_mul_right _ hds
    have h2 : (10:Nat) ^ (d :: t).length = 10 * 10 ^ t.length := by
      simp only [List.length_cons]
      ring
    omega

theorem digits_inj (s : List Nat) : ∀ t, allDigits s = true → allDigits t = true →
    s.length = t.length → parseNat s = parseNat t → s = t := by
  induction s with
  | nil => intro t _ _ hl _; cases t <;> simp_all
  | cons d s' ih =>
    intro t hds hdt hl hp
    cases t with
    | nil => simp at hl
    | cons e t' =>
      have hlen : s'.length = t'.length := by simpa using hl
      rw [parseNat_cons, parseNat_cons, hlen] at hp
      have hds' : allDigits s' = true := by
        rw [allDigits, List.all_eq_true] at hds ⊢
        exact fun x hx => hds x (List.mem_cons_of_mem d hx)
      have hdt' : allDigits t' = true := by
        rw [allDigits, List.all_eq_true] at hdt ⊢
        exact fun x hx => hdt x (List.mem_cons_of_mem e hx)
      have hps : parseNat s' < 10 ^ t'.length := hlen ▸ parseNat_lt s' hds'
      have hpt : parseNat t' < 10 ^ t'.length := parseNat_lt t' hdt'
      have hP : (0:Nat) < 10 ^ t'.length := Nat.pos_pow_of_pos _ (by omega)
      have hdiv : d - 0x30 = e - 0x30 := by
        have h1 : ((d - 0x30) * 10 ^ t'.length + parseNat s') / 10 ^ t'.length
            = d - 0x30 := by
          rw [Nat.mul_comm, Nat.mul_add_div hP, Nat.div_eq_of_lt hps]
          omega
        have h2 : ((e - 0x30) * 10 ^ t'.length + parseNat t') / 10 ^ t'.length
            = e - 0x30 := by
          rw [Nat.mul_comm, Nat.mul_add_div hP, Nat.div_eq_of_lt hpt]
          omega
        rw [← h1, ← h2, hp]
      have hde : d = e := by
        rw [allDigits, List.all_eq_true] at hds hdt
        have h1 := hds d (List.mem_cons_self d s')
        have h2 := hdt e (List.mem_cons_self e t')
        simp only [isDigitCp, decide_eq_true_eq] at h1 h2
        omega
      have hrest : parseNat s' = parseNat t' := by
        rw [hdiv] at hp
        omega
      rw [hde, ih t' hds' hdt' hlen hrest]

theorem fmtZ_parseNat_self (s : List Nat) (hw : 0 < s.length)
    (hd : allDigits s = true) : fmtZ s.length (parseNat s) = s := by
  apply digits_inj _ _ (allDigits_fmtZ _ _) hd _ (by rw [parseNat_fmtZ])
  exact fmtZ_length_of_lt _ _ hw (parseNat_lt s hd)

/-! ### Text encoding and decoding lemmas -/

theorem encodeChar_ascii (e : Enc) (c : Nat) (h : c < 0x80) :
    encodeChar e c = some [c] := by
  cases e with
  | latin1 => simp [encodeChar]; omega
  | utf8 =>
    have hv : validScalar c := ⟨by omega, by omega⟩
    simp only [encodeChar, if_pos hv, utf8EncodeChar, if_pos h]

theorem encodeText_ascii (e : Enc) (s : List Nat) (h : ∀ c ∈ s, c < 0x80) :
    encodeText e s = some s := by
  induction s with
  | nil => rfl
  | cons c rest ih =>
    have hc : c < 0x80 := h c (List.mem_cons_self c rest)
    have hr := ih fun x hx => h x (List.mem_cons_of_mem c hx)
    simp only [encodeText, encodeChar_ascii e c hc, hr]
    rfl

theorem encodeText_latin1_all (s : List Nat) (h : ∀ c ∈ s, c < 0x100) :
    encodeText .latin1 s = some s := by
  induction s with
  | nil => rfl
  | cons c rest ih =>
    have hc : c < 0x100 := h c (List.mem_cons_self c rest)
    have hr := ih fun x hx => h x (List.mem_cons_of_mem c hx)
    simp only [encodeText, encodeChar, if_pos hc, hr]
    rfl

theorem encodeText_append (e : Enc) (a b : List Nat) :
    encodeText e (a ++ b)
      = (encodeText e a).bind fun x => (encodeText e b).map fun y => x ++ y := by
  induction a with
  | nil =>
    cases hb : encodeText e b <;> simp [encodeText, hb]
  | cons c rest ih =>
    rw [List.cons_append]
    simp only [encodeText]
    rw [ih]
    cases hc : encodeChar e c with
    | none => simp
    | some bs =>
      cases hr : encodeText e rest with
      | none => simp
      | some rs =>
        cases hb : encodeText e b with
        | none => simp
        | some bb => simp [List.append_assoc]

theorem asciiDecode_of_ascii (bs : List Nat) (h : ∀ b ∈ bs, b < 0x80) :
    asciiDecode bs = .ok bs := by
  rw [asciiDecode, if_pos]
  rw [List.all_eq_true]
  intro b hb
  simpa using h b hb

theorem asciiDecode_ok (bs l : List Nat) (h : asciiDecode bs = .ok l) :
    l = bs ∧ ∀ b ∈ bs, b < 0x80 := by
  rw [asciiDecode] at h
  by_cases hc : bs.all (fun b => decide (b < 0x80)) = true
  · rw [if_pos hc] at h
    cases h
    rw [List.all_eq_true] at hc
    exact ⟨rfl, fun b hb => by simpa using hc b hb⟩
  · rw [if_neg hc] at h
    cases h

theorem asciiDecode_error (bs : List Nat) (x : DecodeError)
    (h : asciiDecode bs = .error x) : x = .unicodeDecodeError := by
  rw [asciiDecode] at h
  by_cases hc : bs.all (fun b => decide (b < 0x80)) = true
  · rw [if_pos hc] at h; cases h
  · rw [if_neg hc] at h; cases h; rfl

theorem decodeText_error (e : Enc) (bs : List Nat) (x : DecodeError)
    (h : decodeText e bs = .error x) : x = .unicodeDecodeError := by
  cases e with
  | latin1 => simp [decodeText] at h
  | utf8 =>
    rw [decodeText] at h
    cases hu : utf8Decode bs with
    | some t => rw [hu] at h; cases h
    | none => rw [hu] at h; cases h; rfl

/-! ### UTF-8 round trip -/

set_option maxHeartbeats 1600000 in
set_option maxRecDepth 4096 in
theorem utf8Decode_cons (b : Nat) (rest : List Nat) :
    utf8Decode (b :: rest) =
      if b < 0x80 then (utf8Decode rest).map (b :: ·)
      else if b < 0xC2 then none
      else if b ≤ 0xDF then
        (match rest with
         | b1 :: rest1 =>
           if isCont b1 then
             (utf8Decode rest1).map (fun t => ((b - 0xC0) * 64 + (b1 - 0x80)) :: t)
           else none
         | [] => none)
      else if b ≤ 0xEF then
        (match rest with
         | b1 :: b2 :: rest2 =>
           if isCont b1 && isCont b2 then
             if 0x800 ≤ (b - 0xE0) * 4096 + (b1 - 0x80) * 64 + (b2 - 0x80) ∧
                 ¬(0xD800 ≤ (b - 0xE0) * 4096 + (b1 - 0x80) * 64 + (b2 - 0x80) ∧
                   (b - 0xE0) * 4096 + (b1 - 0x80) * 64 + (b2 - 0x80) ≤ 0xDFFF) then
               (utf8Decode rest2).map
                 (fun t => ((b - 0xE0) * 4096 + (b1 - 0x80) * 64 + (b2 - 0x80)) :: t)
             else none
           else none
         | _ => none)
      else if b ≤ 0xF4 then
        (match rest with
         | b1 :: b2 :: b3 :: rest3 =>
           if isCont b1 && isCont b2 && isCont b3 then
             if 0x10000 ≤ (b - 0xF0) * 262144 + (b1 - 0x80) * 4096 + (b2 - 0x80) * 64
                   + (b3 - 0x80) ∧
                 (b - 0xF0) * 262144 + (b1 - 0x80) * 4096 + (b2 - 0x80) * 64 + (b3 - 0x80)
                   < 0x110000 then
               (utf8Decode rest3).map
                 (fun t => ((b - 0xF0) * 262144 + (b1 - 0x80) * 4096 + (b2 - 0x80) * 64
                   + (b3 - 0x80)) :: t)
             else none
           else none
         | _ => none)
      else none := by
  cases rest with
  | nil => rfl
  | cons b1 r1 =>
    cases r1 with
    | nil => rfl
    | cons b2 r2 =>
      cases r2 with
      | nil => rfl
      | cons b3 r3 => rfl

set_option maxHeartbeats 1600000 in
theorem utf8Decode_encodeChar_cons (c : Nat) (hv : validScalar c) (t : List Nat) :
    utf8Decode (utf8EncodeChar c ++ t) = (utf8Decode t).map (c :: ·) := by
  obtain ⟨hlt, hsur⟩ := hv
  by_cases h1 : c < 0x80
  · rw [show utf8EncodeChar c = [c] from by rw [utf8EncodeChar, if_pos h1]]
    show utf8Decode (c :: t) = _
    rw [utf8Decode_cons, if_pos h1]
  · by_cases h2 : c < 0x800
    · rw [show utf8EncodeChar c = [0xC0 + c / 64, 0x80 + c % 64] from by
        rw [utf8EncodeChar, if_neg h1, if_pos h2]]
      show utf8Decode (_ :: _ :: t) = _
      rw [utf8Decode_cons]
      rw [if_neg (by omega), if_neg (by omega), if_pos (by omega)]
      simp only []
      rw [if_pos (by simp only [isCont, decide_eq_true_eq]; omega)]
      have hval : (0xC0 + c / 64 - 0xC0) * 64 + (0x80 + c % 64 - 0x80) = c := by
        omega
      rw [hval]
    · by_cases h3 : c < 0x10000
      · rw [show utf8EncodeChar c = [0xE0 + c / 4096, 0x80 + c / 64 % 64, 0x80 + c % 64] from by
          rw [utf8EncodeChar, if_neg h1, if_neg h2, if_pos h3]]
        show utf8Decode (_ :: _ :: _ :: t) = _
        rw [utf8Decode_cons]
        rw [if_neg (by omega), if_neg (by omega), if_neg (by omega), if_pos (by omega)]
        simp only []
        rw [if_pos (by simp only [isCont, Bool.and_eq_true, decide_eq_true_eq]; omega)]
        have hval : (0xE0 + c / 4096 - 0xE0) * 4096 + (0x80 + c / 64 % 64 - 0x80) * 64
            + (0x80 + c % 64 - 0x80) = c := by
          omega
        simp only [hval]
        rw [if_pos (by omega)]
      · rw [show utf8EncodeChar c
            = [0xF0 + c / 262144, 0x80 + c / 4096 % 64, 0x80 + c / 64 % 64, 0x80 + c % 64] from by
          rw [utf8EncodeChar, if_neg h1, if_neg h2, if_neg h3]]
        show utf8Decode (_ :: _ :: _ :: _ :: t) = _
        rw [utf8Decode_cons]
        rw [if_neg (by omega), if_neg (by omega), if_neg (by omega), if_neg (by omega),
          if_pos (by omega)]
        simp only []
        rw [if_pos (by simp only [isCont, Bool.and_eq_true, decide_eq_true_eq]; omega)]
        have hval : (0xF0 + c / 262144 - 0xF0) * 262144 + (0x80 + c / 4096 % 64 - 0x80) * 4096
            + (0x80 + c / 64 % 64 - 0x80) * 64 + (0x80 + c % 64 - 0x80) = c := by
          omega
        simp only [hval]
        rw [if_pos (by omega)]

theorem utf8_roundtrip (s b : List Nat) (h : encodeText .utf8 s = some b) :
    utf8Decode b = some s := by
  induction s generalizing b with
  | nil =>
    cases h
    rfl
  | cons c rest ih =>
    rw [encodeText] at h
    cases hc : encodeChar Enc.utf8 c with
    | none => rw [hc] at h; cases h
    | some bs =>
      cases hr : encodeText Enc.utf8 rest with
      | none => rw [hc, hr] at h; cases h
      | some rs =>
        rw [hc, hr] at h
        cases h
        rw [encodeChar] at hc
        by_cases hv : validScalar c
        · rw [if_pos hv] at hc
          cases hc
          rw [utf8Decode_encodeChar_cons c hv rs, ih rs hr]
          rfl
        · rw [if_neg hv] at hc; cases hc

theorem utf8EncodeChar_high (c : Nat) (h : 0x80 ≤ c) :
    ∀ b ∈ utf8EncodeChar c, 0x80 ≤ b := by
  intro b hb
  rw [utf8EncodeChar] at hb
  rw [if_neg (by omega)] at hb
  by_cases h2 : c < 0x800
  · rw [if_pos h2] at hb
    simp only [List.mem_cons, List.not_mem_nil, or_false] at hb
    rcases hb with hb | hb <;> omega
  · rw [if_neg h2] at hb
    by_cases h3 : c < 0x10000
    · rw [if_pos h3] at hb
      simp only [List.mem_cons, List.not_mem_nil, or_false] at hb
      rcases hb with hb | hb | hb <;> omega
    · rw [if_neg h3] at hb
      simp only [List.mem_cons, List.not_mem_nil, or_false] at hb
      rcases hb with hb | hb | hb | hb <;> omega

theorem encodeText_no_byte (e : Enc) (s b : List Nat) (x : Nat) (hx : x < 0x80)
    (h : encodeText e s = some b) (hs : ∀ c ∈ s, c ≠ x) : x ∉ b := by
  induction s generalizing b with
  | nil =>
    cases h
    simp
  | cons c rest ih =>
    rw [encodeText] at h
    cases hc : encodeChar e c with
    | none => rw [hc] at h; cases h
    | some bs =>
      cases hr : encodeText e rest with
      | none => rw [hc, hr] at h; cases h
      | some rs =>
        rw [hc, hr] at h
        cases h
        intro hmem
        rcases List.mem_append.1 hmem with hm | hm
        · have hcx : c ≠ x := hs c (List.mem_cons_self c rest)
          cases e with
          | latin1 =>
            rw [encodeChar] at hc
            by_cases hlt : c < 0x100
            · rw [if_pos hlt] at hc
              cases hc
              rw [List.mem_singleton] at hm
              exact hcx hm.symm
            · rw [if_neg hlt] at hc; cases hc
          | utf8 =>
            rw [encodeChar] at hc
            by_cases hv : validScalar c
            · rw [if_pos hv] at hc
              cases hc
              by_cases hc8 : c < 0x80
              · rw [utf8EncodeChar, if_pos hc8] at hm
                rw [List.mem_singleton] at hm
                exact hcx hm.symm
              · have := utf8EncodeChar_high c (by omega) x hm
                omega
            · rw [if_neg hv] at hc; cases hc
        · exact ih rs hr (fun y hy => hs y (List.mem_cons_of_mem c hy)) hm

/-! ### MARC-8 identity on ASCII graphic bytes -/

set_option maxHeartbeats 1600000 in
set_option maxRecDepth 4096 in
theorem marc8Go_cons (g0 g1 : Nat) (pending : List Nat) (b : Nat) (rest : List Nat) :
    marc8Go g0 g1 pending (b :: rest) =
      if b = 0x1B then
        (match rest with
         | [] => pending
         | x :: rest2 =>
           if x = 0x28 ∨ x = 0x2C then
             (match rest2 with
              | y :: rest3 => marc8Go y g1 pending rest3
              | [] => pending)
           else if x = 0x29 ∨ x = 0x2D then
             (match rest2 with
              | y :: rest3 => marc8Go g0 y pending rest3
              | [] => pending)
           else if x = 0x24 then
             (match rest2 with
              | y :: rest3 =>
                if y = 0x2C then
                  (match rest3 with
                   | z :: rest4 => marc8Go g0 z pending rest4
                   | [] => pending)
                else marc8Go y g1 pending rest3
              | [] => pending)
           else if x = 0x73 then marc8Go 0x42 g1 pending rest2
           else marc8Go x g1 pending rest2)
      else
        if (if b < 0x80 then g0 else g1) == 0x31 then
          (match rest with
           | _ :: _ :: rest2 => 0xFFFD :: (pending ++ marc8Go g0 g1 [] rest2)
           | _ => 0xFFFD :: pending)
        else if marc8IsCombining (if b < 0x80 then g0 else g1) (b % 0x80) then
          marc8Go g0 g1 (pending ++ [marc8Table (if b < 0x80 then g0 else g1) (b % 0x80)]) rest
        else
          marc8Table (if b < 0x80 then g0 else g1) (b % 0x80)
            :: (pending ++ marc8Go g0 g1 [] rest) := by
  cases rest with
  | nil => rfl
  | cons x r1 =>
    cases r1 with
    | nil => rfl
    | cons y r2 =>
      cases r2 with
      | nil => rfl
      | cons z r3 => rfl

set_option maxHeartbeats 1600000 in
theorem marc8Go_graphic (s : List Nat) (h : ∀ b ∈ s, 0x20 ≤ b ∧ b ≤ 0x7E) :
    marc8Go 0x42 0x45 [] s = s := by
  induction s with
  | nil => rfl
  | cons b rest ih =>
    obtain ⟨hb1, hb2⟩ := h b (List.mem_cons_self b rest)
    have hr := ih fun x hx => h x (List.mem_cons_of_mem b hx)
    rw [marc8Go_cons, if_neg (by omega)]
    have hsid : (if b < 0x80 then (0x42:Nat) else 0x45) = 0x42 := if_pos (by omega)
    rw [hsid]
    have hmod : b % 0x80 = b := Nat.mod_eq_of_lt (by omega)
    rw [hmod]
    rw [if_neg (by decide), if_neg (by simp [marc8IsCombining])]
    rw [show marc8Table 0x42 b = b from by rw [marc8Table]; simp]
    rw [List.nil_append, hr]

theorem marc8_to_unicode_graphic (s : List Nat) (h : ∀ b ∈ s, 0x20 ≤ b ∧ b ≤ 0x7E) :
    marc8_to_unicode s = s :=
  marc8Go_graphic s h

/-! ### Claim C10: empty subfield chunks are skipped silently -/

/-- C10: during decode of a data field, every zero-length subfield chunk
(arising from consecutive 0x1F bytes or a trailing 0x1F) is skipped
silently: the subfield loop behaves exactly as if the empty chunks were
absent, so they contribute no (code, value) pair, no warning and no
error. -/
theorem C10_empty_subfield_chunks_skipped
    (dec : List Nat → Except DecodeError (List Nat)) (chunks : List (List Nat)) :
    decodeSubfields dec chunks
      = decodeSubfields dec (chunks.filter fun c => !c.isEmpty) := by
  induction chunks with
  | nil => rfl
  | cons c rest ih =>
    rw [decodeSubfields]
    by_cases h : c.isEmpty
    · rw [if_pos h, ih, List.filter_cons, if_neg (by simp [h])]
    · rw [if_neg h, List.filter_cons, if_pos (by simp [h])]
      conv_rhs => rw [decodeSubfields]
      rw [if_neg h, ih]

/-! ### Claim C9: remove_field is not atomic on error -/

/-- C9: when `remove_field` is called with a list of fields and, after the
fields of `pre` have been removed one by one, the next argument `y` is not
present, `FieldNotFound` is raised (the Bool is true) and the record is
left exactly in the state `l'` reached after removing `pre` — the earlier
removals are not rolled back. -/
theorem C9_remove_field_not_atomic (l pre : List Field) (y : Field)
    (post : List Field) (l' : List Field)
    (hpre : chainRemove l pre = some l') (hy : listRemove l' y = none) :
    remove_field l (pre ++ y :: post) = (l', true) := by
  induction pre generalizing l with
  | nil =>
    cases hpre
    rw [List.nil_append, remove_field, hy]
  | cons f pre' ih =>
    rw [chainRemove, List.foldlM_cons] at hpre
    cases hlf : listRemove l f with
    | none => rw [hlf] at hpre; cases hpre
    | some l1 =>
      rw [hlf] at hpre
      rw [List.cons_append, remove_field, hlf]
      exact ih l1 hpre

def fA : Field := .control [0x30, 0x30, 0x31] [0x41]
def fB : Field := .control [0x30, 0x30, 0x32] [0x42]
def fC : Field := .control [0x30, 0x30, 0x33] [0x43]

/-- Witness for C9 at a concrete record: removing `[fA, fC]` from
`[fA, fB]` raises with `fA` already removed and not restored. -/
theorem C9_remove_field_not_atomic_witness :
    chainRemove [fA, fB] [fA] = some [fB] ∧ listRemove [fB] fC = none ∧
      remove_field [fA, fB] ([fA] ++ fC :: []) = ([fB], true) ∧ [fB] ≠ [fA, fB] :=
  ⟨by decide, by decide,
    C9_remove_field_not_atomic [fA, fB] [fA] fC [] [fB] (by decide) (by decide),
    by decide⟩

/-! ### Claim C8: add_ordered_field keeps the record ordered -/

/-- The ordering on fields that `add_ordered_field` maintains: digit tags
compare by numeric value, and every non-digit tag sorts after every digit
tag (non-digit tags are mutually unordered and kept at the end). -/
def fieldLE (f g : Field) : Bool :=
  if pyIsdigit f.tag then
    (if pyIsdigit g.tag then decide (parseNat f.tag ≤ parseNat g.tag) else true)
  else !pyIsdigit g.tag

/-- A record's field list ordered by `fieldLE`. -/
def orderedFields (l : List Field) : Prop :=
  l.Pairwise fun f g => fieldLE f g = true

theorem fieldLE_total (f g : Field) : fieldLE f g = true ∨ fieldLE g f = true := by
  unfold fieldLE
  cases hf : pyIsdigit f.tag <;> cases hg : pyIsdigit g.tag <;> simp
  exact Nat.le_total (parseNat f.tag) (parseNat g.tag)

theorem fieldLE_trans (f g h : Field) (h1 : fieldLE f g = true)
    (h2 : fieldLE g h = true) : fieldLE f h = true := by
  unfold fieldLE at *
  cases hf : pyIsdigit f.tag <;> cases hg : pyIsdigit g.tag <;>
    cases hh : pyIsdigit h.tag <;> simp_all <;> omega

theorem fieldLE_to_nondigit (g f : Field) (h : pyIsdigit f.tag = false) :
    fieldLE g f = true := by
  cases hg : pyIsdigit g.tag <;> simp [fieldLE, hg, h]

theorem sortFieldsOrdered_eq (f : Field) (hf : pyIsdigit f.tag = true)
    (l : List Field) :
    sortFieldsOrdered (parseNat f.tag) f l
      = l.takeWhile (fun g => fieldLE g f) ++ f :: l.dropWhile (fun g => fieldLE g f) := by
  induction l with
  | nil => rfl
  | cons g rest ih =>
    by_cases hg : pyIsdigit g.tag
    · by_cases hlt : parseNat f.tag < parseNat g.tag
      · have hle : fieldLE g f = false := by
          unfold fieldLE
          rw [if_pos hg, if_pos hf]
          simp
          omega
        rw [sortFieldsOrdered, if_neg (by simp [hg]), if_pos hlt,
          List.takeWhile_cons, List.dropWhile_cons]
        simp [hle]
      · have hle : fieldLE g f = true := by
          unfold fieldLE
          rw [if_pos hg, if_pos hf]
          simp
          omega
        rw [sortFieldsOrdered, if_neg (by simp [hg]), if_neg hlt,
          List.takeWhile_cons, List.dropWhile_cons, ih]
        simp [hle]
    · have hle : fieldLE g f = false := by
        unfold fieldLE
        rw [if_neg (by simp [hg])]
        simp [hf]
      rw [sortFieldsOrdered, if_pos (by simp [hg]),
        List.takeWhile_cons, List.dropWhile_cons]
      simp [hle]

theorem orderedFields_insert (l : List Field) (f : Field) (h : orderedFields l) :
    orderedFields
      (l.takeWhile (fun g => fieldLE g f) ++ f :: l.dropWhile (fun g => fieldLE g f)) := by
  induction l with
  | nil => simp [orderedFields]
  | cons g rest ih =>
    rcases List.pairwise_cons.1 h with ⟨hg, hrest⟩
    by_cases hp : fieldLE g f = true
    · rw [List.takeWhile_cons, List.dropWhile_cons, if_pos hp, if_pos hp]
      rw [List.cons_append]
      refine List.Pairwise.cons ?_ (ih hrest)
      intro x hx
      rcases List.mem_append.1 hx with hm | hm
      · exact hg x ((List.takeWhile_sublist _).subset hm)
      · rcases List.mem_cons.1 hm with rfl | hm2
        · exact hp
        · exact hg x ((List.dropWhile_sublist _).subset hm2)
    · rw [List.takeWhile_cons, List.dropWhile_cons, if_neg hp, if_neg hp]
      rw [List.nil_append]
      have hfg : fieldLE f g = true := (fieldLE_total f g).resolve_right hp
      refine List.Pairwise.cons ?_ h
      intro x hx
      rcases List.mem_cons.1 hx with rfl | hm
      · exact hfg
      · exact fieldLE_trans f g x hfg (hg x hm)

theorem takeWhile_of_all {α : Type} (p : α → Bool) (m : List α)
    (h : ∀ g ∈ m, p g = true) : m.takeWhile p = m := by
  induction m with
  | nil => rfl
  | cons g rest ih =>
    rw [List.takeWhile_cons, if_pos (h g (List.mem_cons_self g rest))]
    rw [ih fun x hx => h x (List.mem_cons_of_mem g hx)]

theorem dropWhile_of_all {α : Type} (p : α → Bool) (m : List α)
    (h : ∀ g ∈ m, p g = true) : m.dropWhile p = [] := by
  induction m with
  | nil => rfl
  | cons g rest ih =>
    rw [List.dropWhile_cons, if_pos (h g (List.mem_cons_self g rest))]
    exact ih fun x hx => h x (List.mem_cons_of_mem g hx)

/-- C8: on a record whose field sequence is ordered by numeric tag with
non-digit tags at the end (`orderedFields`), `add_ordered_field` keeps the
sequence ordered; a field with a non-digit tag is always appended at the
end (never reorders); and when no existing field's tag exceeds the new
field's tag (every existing field is `fieldLE` the new one, non-digit tags
counting as greater than every numeric tag), the new field is appended at
the end. -/
theorem C8_add_ordered_field_ordered (l : List Field) (f : Field)
    (h : orderedFields l) :
    orderedFields (add_ordered_field l f) ∧
    (pyIsdigit f.tag = false → add_ordered_field l f = l ++ [f]) ∧
    ((∀ g ∈ l, fieldLE g f = true) → add_ordered_field l f = l ++ [f]) := by
  refine ⟨?_, ?_, ?_⟩
  · unfold add_ordered_field
    by_cases he : l.isEmpty
    · rw [if_pos (by simp [he])]
      rw [List.isEmpty_iff] at he
      subst he
      simp [orderedFields]
    · by_cases hd : pyIsdigit f.tag
      · rw [if_neg (by simp [he, hd])]
        rw [sortFieldsOrdered_eq f hd l]
        exact orderedFields_insert l f h
      · rw [if_pos (by simp [hd])]
        rw [orderedFields, List.pairwise_append]
        refine ⟨h, List.pairwise_singleton _ _, ?_⟩
        intro a _ b hb
        rw [List.mem_singleton] at hb
        rw [hb]
        exact fieldLE_to_nondigit a f (by simpa using hd)
  · intro hnd
    unfold add_ordered_field
    rw [if_pos (by simp [hnd])]
  · intro hall
    unfold add_ordered_field
    by_cases he : l.isEmpty
    · rw [if_pos (by simp [he])]
    · by_cases hd : pyIsdigit f.tag
      · rw [if_neg (by simp [he, hd])]
        rw [sortFieldsOrdered_eq f hd l,
          takeWhile_of_all _ l hall, dropWhile_of_all _ l hall]
      · rw [if_pos (by simp [hd])]

instance (l : List Field) : Decidable (orderedFields l) := by
  unfold orderedFields
  infer_instance

def f100 : Field := .data [0x31, 0x30, 0x30] 0x20 0x20 []
def f200 : Field := .data [0x32, 0x30, 0x30] 0x20 0x20 []
def f245 : Field := .data [0x32, 0x34, 0x35] 0x20 0x20 []

/-- Witness for C8 at a concrete ordered record. -/
theorem C8_add_ordered_field_ordered_witness :
    orderedFields [f100, f245] ∧
      (orderedFields (add_ordered_field [f100, f245] f200) ∧
        (pyIsdigit f200.tag = false → add_ordered_field [f100, f245] f200
          = [f100, f245] ++ [f200]) ∧
        ((∀ g ∈ [f100, f245], fieldLE g f200 = true) →
          add_ordered_field [f100, f245] f200 = [f100, f245] ++ [f200])) :=
  ⟨by decide, C8_add_ordered_field_ordered [f100, f245] f200 (by decide)⟩

/-! ### Claim C6: indicator repair policy -/

/-- C6 (amended): for every data field, the chunk before the first 0x1F
determines the indicators by the repair policy — 0 bytes gives two spaces,
1 byte gives that byte and a space, exactly 2 bytes are used as-is, more
than 2 bytes keep the first two — each anomaly logging its warning,
PROVIDED the chunk is ASCII; a chunk containing a byte ≥ 0x80 instead
raises UnicodeDecodeError and fails the whole record (see the
counterexample). -/
theorem C6_indicator_repair (s : List Nat) (h : ∀ b ∈ s, b < 0x80) :
    decodeIndicators s =
      .ok ((s.getD 0 0x20, s.getD 1 0x20),
        if s.length = 0 then [Warning.missingIndicators]
        else if s.length = 1 then [Warning.oneIndicatorOnly]
        else if s.length = 2 then ([] : List Warning)
        else [Warning.extraIndicators]) := by
  have hok : asciiDecode s = .ok s := asciiDecode_of_ascii s h
  rcases s with _ | ⟨a, s1⟩
  · rfl
  · rcases s1 with _ | ⟨b, s2⟩
    · unfold decodeIndicators
      rw [hok]
      rfl
    · rcases s2 with _ | ⟨c, t⟩
      · unfold decodeIndicators
        rw [hok]
        rfl
      · unfold decodeIndicators
        rw [hok]
        simp only [exBind_ok, List.length_cons]
        rw [if_neg (by omega), if_neg (by omega), if_neg (by omega)]
        rfl

/-- Witness for C6 at the two-byte ASCII chunk `"10"`. -/
theorem C6_indicator_repair_witness :
    (∀ b ∈ [0x31, 0x30], b < 0x80) ∧
      decodeIndicators [0x31, 0x30] =
        .ok (([0x31, 0x30].getD 0 0x20, [0x31, 0x30].getD 1 0x20),
          if [0x31, 0x30].length = 0 then [Warning.missingIndicators]
          else if [0x31, 0x30].length = 1 then [Warning.oneIndicatorOnly]
          else if [0x31, 0x30].length = 2 then ([] : List Warning)
          else [Warning.extraIndicators]) :=
  ⟨by decide, C6_indicator_repair [0x31, 0x30] (by decide)⟩

/-- A complete record buffer whose single data field `245` starts with the
indicator bytes `0xFF 0x30`. -/
def c6buf : List Nat :=
  [0x30, 0x30, 0x30, 0x34, 0x34] ++ List.replicate 7 0x20
    ++ [0x30, 0x30, 0x30, 0x33, 0x37] ++ List.replicate 7 0x20
    ++ ([0x32, 0x34, 0x35] ++ [0x30, 0x30, 0x30, 0x36] ++ [0x30, 0x30, 0x30, 0x30, 0x30]
      ++ [0x1E])
    ++ ([0xFF, 0x30, 0x1F, 0x61, 0x41, 0x1E] ++ [0x1D])

/-- C6 (counterexample to the claim as stated): a well-formed record whose
data field has exactly two indicator bytes, one of them non-ASCII (0xFF).
The claim says two bytes are "used as-is" and that indicator handling
"never fails the field or record", but decoding fails the whole record
with a UnicodeDecodeError. -/
theorem C6_counterexample :
    decode_marc c6buf false false .latin1 = .error .unicodeDecodeError := by
  decide

/-! ### Claim C4: non-ASCII subfield code normalization -/

theorem normalize_subfield_code_spec (chunk : List Nat) (code skip : Nat)
    (hn : normalize_subfield_code chunk = some (code, skip)) :
    (∀ t, utf8Decode chunk = some t → skip = (utf8EncodeChar (t.headD 0)).length) ∧
    (utf8Decode chunk = none → skip = 1) ∧
    (∃ tl, ((nfkd ((utf8Decode chunk).getD (latin1ToCp chunk))).filter
        fun x => decide (x < 0x80)) = code :: tl) := by
  unfold normalize_subfield_code at hn
  cases hu : utf8Decode chunk with
  | some t0 =>
    rw [hu] at hn
    simp only [] at hn
    cases hfil : (nfkd t0).filter (fun x => decide (x < 0x80)) with
    | nil => rw [hfil] at hn; cases hn
    | cons x tl =>
      rw [hfil] at hn
      simp only [Option.some.injEq, Prod.mk.injEq] at hn
      obtain ⟨hx, hskip⟩ := hn
      refine ⟨?_, ?_, ?_⟩
      · intro t ht
        cases ht
        cases t0 with
        | nil => rw [← hskip]; decide
        | cons c0 t0' => rw [← hskip]; rfl
      · intro hcontra
        cases hcontra
      · exact ⟨tl, by rw [show (some t0).getD (latin1ToCp chunk) = t0 from rfl, hfil, hx]⟩
  | none =>
    rw [hu] at hn
    simp only [] at hn
    cases hfil : (nfkd (latin1ToCp chunk)).filter (fun x => decide (x < 0x80)) with
    | nil => rw [hfil] at hn; cases hn
    | cons x tl =>
      rw [hfil] at hn
      simp only [Option.some.injEq, Prod.mk.injEq] at hn
      obtain ⟨hx, hskip⟩ := hn
      refine ⟨?_, ?_, ?_⟩
      · intro t ht
        cases ht
      · intro _
        omega
      · exact ⟨tl, by rw [show (Option.getD none (latin1ToCp chunk)) = latin1ToCp chunk from rfl,
          hfil, hx]⟩

/-- C4 (amended): during decode of a data field, a subfield chunk whose
first byte is not ASCII yields a BadSubfieldCode warning; the code is
normalized by decoding the chunk as UTF-8 (falling back to Latin-1),
applying NFKD, dropping non-ASCII code points and taking the first
remaining code point; the number of bytes consumed before the value equals
the UTF-8 length of the first character WHEN the UTF-8 decode succeeded,
and is exactly 1 in the Latin-1 fallback (the claim's statement that it
always equals the UTF-8 length of the original first character fails
there, see the counterexample). -/
theorem C4_bad_subfield_code (dec : List Nat → Except DecodeError (List Nat))
    (c : Nat) (cs : List Nat) (hc : 0x80 ≤ c)
    (code skip : Nat) (hn : normalize_subfield_code (c :: cs) = some (code, skip))
    (v : List Nat) (hv : dec ((c :: cs).drop skip) = .ok v)
    (rest : List (List Nat)) (sf : List (Nat × List Nat)) (ws : List Warning)
    (hrest : decodeSubfields dec rest = .ok (sf, ws)) :
    decodeSubfields dec ((c :: cs) :: rest)
        = .ok ((code, v) :: sf, Warning.badSubfieldCode :: ws) ∧
      (∀ t, utf8Decode (c :: cs) = some t → skip = (utf8EncodeChar (t.headD 0)).length) ∧
      (utf8Decode (c :: cs) = none → skip = 1) ∧
      (∃ tl, ((nfkd ((utf8Decode (c :: cs)).getD (latin1ToCp (c :: cs)))).filter
          fun x => decide (x < 0x80)) = code :: tl) := by
  refine ⟨?_, normalize_subfield_code_spec (c :: cs) code skip hn⟩
  rw [decodeSubfields, if_neg (by simp)]
  rw [show subfieldCodeStep (c :: cs) = .ok (code, skip, [Warning.badSubfieldCode]) from by
    unfold subfieldCodeStep
    simp only []
    rw [if_neg (by omega), hn]]
  simp only [exBind_ok]
  rw [hv]
  simp only [exBind_ok]
  rw [hrest]
  rfl

/-- Witness for C4 at the valid-UTF-8 chunk `0xC3 0xA1` ("á"): the code
normalizes to `a` and two bytes are consumed. -/
theorem C4_bad_subfield_code_witness :
    (0x80 ≤ 0xC3) ∧ normalize_subfield_code [0xC3, 0xA1] = some (0x61, 2) ∧
      decodeText .latin1 ([0xC3, 0xA1].drop 2) = .ok [] ∧
      decodeSubfields (decodeText .latin1) [] = .ok ([], []) ∧
      (decodeSubfields (decodeText .latin1) ([0xC3, 0xA1] :: [])
          = .ok ((0x61, ([] : List Nat)) :: [], Warning.badSubfieldCode :: []) ∧
        (∀ t, utf8Decode [0xC3, 0xA1] = some t
          → 2 = (utf8EncodeChar (t.headD 0)).length) ∧
        (utf8Decode [0xC3, 0xA1] = none → 2 = 1) ∧
        (∃ tl, ((nfkd ((utf8Decode [0xC3, 0xA1]).getD (latin1ToCp [0xC3, 0xA1]))).filter
            fun x => decide (x < 0x80)) = 0x61 :: tl)) :=
  ⟨by decide, by decide, by decide, by decide,
    C4_bad_subfield_code (decodeText .latin1) 0xC3 [0xA1] (by decide) 0x61 2 (by decide)
      [] (by decide) [] [] [] (by decide)⟩

/-- C4 (counterexample to the claim as stated): the chunk `0xE1 0x61` is
not valid UTF-8, so the decoder falls back to Latin-1 ("áa"), normalizes
the code to `a`, and consumes exactly ONE byte — but the UTF-8 length of
the original first character (á) is 2, contradicting the claim that the
number of bytes consumed equals the UTF-8 length of the original first
character. -/
theorem C4_counterexample :
    decodeSubfields (decodeText .latin1) [[0xE1, 0x61]]
        = .ok ([(0x61, [0x61])], [.badSubfieldCode]) ∧
      normalize_subfield_code [0xE1, 0x61] = some (0x61, 1) ∧
      utf8Decode [0xE1, 0x61] = none ∧
      (utf8EncodeChar ((latin1ToCp [0xE1, 0x61]).headD 0)).length = 2 ∧
      (1 : Nat) ≠ 2 := by
  decide

/-! ### Claim C2: no size check in the encoder -/

/-- A record with a default (all-space) leader and a single control field
`001` carrying `n` bytes of data. -/
def mkBig (n : Nat) : Record :=
  ⟨List.replicate 24 0x20, [Field.control [0x30, 0x30, 0x31] (List.replicate n 0x41)], false⟩

/-- The bytes `as_marc` produces for `mkBig n`, for every `n`: leader with
recomputed (possibly wider than 5-digit) lengths, 12+-byte directory entry
with a possibly wider than 4-digit field length, field data, terminators. -/
def bigBytes (n : Nat) : List Nat :=
  fmtZ 5 (35 + (fmtZ 4 (n + 1)).length + n) ++ List.replicate 7 0x20
    ++ fmtZ 5 (33 + (fmtZ 4 (n + 1)).length) ++ List.replicate 7 0x20
    ++ ([0x30, 0x30, 0x31] ++ fmtZ 4 (n + 1) ++ fmtZ 5 0 ++ [0x1E])
    ++ (List.replicate n 0x41 ++ [0x1E] ++ [0x1D])

set_option maxHeartbeats 1600000 in
theorem as_marc_mkBig (n : Nat) : as_marc (mkBig n) = some (bigBytes n) := by
  have hfield : fieldAsMarc Enc.latin1
      (Field.control [0x30, 0x30, 0x31] (List.replicate n 0x41))
      = some (List.replicate n 0x41 ++ [0x1E]) := by
    unfold fieldAsMarc
    apply encodeText_latin1_all
    intro c hc
    rcases List.mem_append.1 hc with hm | hm
    · have := List.eq_of_mem_replicate hm
      omega
    · rw [List.mem_singleton] at hm
      omega
  have hgo : asMarcGo Enc.latin1 0 (mkBig n).fields
      = some (List.replicate n 0x41 ++ [0x1E],
          [0x30, 0x30, 0x31] ++ fmtZ 4 (n + 1) ++ fmtZ 5 0) := by
    show asMarcGo Enc.latin1 0 [Field.control [0x30, 0x30, 0x31] (List.replicate n 0x41)] = _
    rw [asMarcGo, hfield]
    simp only [Option.some_bind]
    rw [show (Field.control [0x30, 0x30, 0x31] (List.replicate n 0x41)).tag
        = [0x30, 0x30, 0x31] from rfl]
    rw [show dirTagBytes Enc.latin1 [0x30, 0x30, 0x31] = some [0x30, 0x30, 0x31] from by decide]
    simp only [Option.some_bind]
    rw [asMarcGo]
    simp only [Option.some_bind, List.append_nil, List.length_append,
      List.length_replicate, List.length_singleton]
  unfold as_marc
  rw [show encOf (mkBig n) = Enc.latin1 from rfl]
  simp only []
  rw [hgo]
  simp only [Option.some_bind]
  have hlv : (mkBig n).leader = List.replicate 24 0x20 := rfl
  have hslice : sliceN (mkBig n).leader 5 12 = List.replicate 7 0x20 := by
    rw [hlv]
    decide
  have hdrop : (mkBig n).leader.drop 17 = List.replicate 7 0x20 := by
    rw [hlv]
    decide
  rw [hslice, hdrop]
  have hdl : (([0x30, 0x30, 0x31] ++ fmtZ 4 (n + 1) ++ fmtZ 5 0) ++ [0x1E]).length
      = 9 + (fmtZ 4 (n + 1)).length := by
    simp only [List.length_append, List.length_cons, List.length_nil]
    have := fmtZ_length 5 0
    simp only [this]
    have h5 : (natDigits 0).length = 1 := by decide
    omega
  have hfl : ((List.replicate n 0x41 ++ [0x1E]) ++ [0x1D]).length = n + 2 := by
    simp only [List.length_append, List.length_replicate, List.length_cons, List.length_nil]
  rw [hdl, hfl]
  have hbase : 24 + (9 + (fmtZ 4 (n + 1)).length) = 33 + (fmtZ 4 (n + 1)).length := by omega
  rw [hbase]
  have hrl : 33 + (fmtZ 4 (n + 1)).length + (n + 2)
      = 35 + (fmtZ 4 (n + 1)).length + n := by omega
  rw [hrl]
  have hldr : encodeText Enc.latin1
      (fmtZ 5 (35 + (fmtZ 4 (n + 1)).length + n) ++ List.replicate 7 0x20
        ++ fmtZ 5 (33 + (fmtZ 4 (n + 1)).length) ++ List.replicate 7 0x20)
      = some (fmtZ 5 (35 + (fmtZ 4 (n + 1)).length + n) ++ List.replicate 7 0x20
        ++ fmtZ 5 (33 + (fmtZ 4 (n + 1)).length) ++ List.replicate 7 0x20) := by
    apply encodeText_latin1_all
    intro c hc
    rcases List.mem_append.1 hc with hm | hm
    · rcases List.mem_append.1 hm with hm2 | hm2
      · rcases List.mem_append.1 hm2 with hm3 | hm3
        · have := fmtZ_mem _ _ c hm3
          omega
        · have := List.eq_of_mem_replicate hm3
          omega
      · have := fmtZ_mem _ _ c hm2
        omega
    · have := List.eq_of_mem_replicate hm
      omega
  rw [hldr]
  simp only [Option.some_bind, bigBytes, List.append_assoc]

/-- C2 (amended): `as_marc` performs no size check and never raises a
record-too-large error: a record with a single field whose serialized
length `n + 1` exceeds 9999 bytes is still serialized, with the directory
length subfield wider than 4 characters (and, when the record length
exceeds 99999, the leader length field wider than 5 characters), yielding
a malformed fixed-width structure instead of a typed failure. -/
theorem C2_no_record_too_large (n : Nat) (h : 9999 < n + 1) :
    as_marc (mkBig n) = some (bigBytes n) ∧ 4 < (fmtZ 4 (n + 1)).length ∧
      (99999 < 35 + (fmtZ 4 (n + 1)).length + n →
        5 < (fmtZ 5 (35 + (fmtZ 4 (n + 1)).length + n)).length) := by
  refine ⟨as_marc_mkBig n, ?_, ?_⟩
  · rw [fmtZ_length]
    have := natDigits_length_lb 4 (n + 1) (by norm_num; omega)
    omega
  · intro hbig
    rw [fmtZ_length]
    have := natDigits_length_lb 5 (35 + (fmtZ 4 (n + 1)).length + n) (by norm_num; omega)
    omega

/-- Witness for C2 (amended) at a field of serialized length 10001. -/
theorem C2_no_record_too_large_witness :
    9999 < 10000 + 1 ∧
      (as_marc (mkBig 10000) = some (bigBytes 10000) ∧
        4 < (fmtZ 4 (10000 + 1)).length ∧
        (99999 < 35 + (fmtZ 4 (10000 + 1)).length + 10000 →
          5 < (fmtZ 5 (35 + (fmtZ 4 (10000 + 1)).length + 10000)).length)) :=
  ⟨by decide, C2_no_record_too_large 10000 (by decide)⟩

/-- C2 (counterexample to the claim as stated): a record containing a
field whose serialized byte length is 10001 (beyond the 4-digit cap) is
serialized successfully — `as_marc` produces output and raises no
record-too-large error. -/
theorem C2_counterexample : (as_marc (mkBig 10000)).isSome = true := by
  rw [as_marc_mkBig 10000]
  rfl

/-! ### Claim C7: when RecordLeaderInvalid is raised -/

theorem exBind_eq_error {α β : Type} (x : Except DecodeError α)
    (f : α → Except DecodeError β) (e : DecodeError) (h : exBind x f = .error e) :
    x = .error e ∨ ∃ a, x = .ok a ∧ f a = .error e := by
  cases x with
  | error e' =>
    rw [show exBind (Except.error e') f = .error e' from rfl] at h
    cases h
    exact Or.inl rfl
  | ok a => exact Or.inr ⟨a, rfl, h⟩

theorem parseIntOr_error (s : List Nat) (x : DecodeError)
    (h : parseIntOr s = .error x) : x = .intParseError := by
  unfold parseIntOr at h
  cases hp : parseDec s with
  | none => rw [hp] at h; cases h; rfl
  | some v => rw [hp] at h; cases h

theorem subfieldValueDecode_error (l9a paramF : Bool) (encU : Enc) (bs : List Nat)
    (x : DecodeError) (h : subfieldValueDecode l9a paramF encU bs = .error x) :
    x = .unicodeDecodeError := by
  unfold subfieldValueDecode at h
  by_cases h1 : (l9a || paramF) = true
  · rw [if_pos h1] at h
    exact decodeText_error _ _ _ h
  · rw [if_neg h1] at h
    by_cases h2 : encU = Enc.latin1
    · rw [if_pos h2] at h
      cases h
    · rw [if_neg h2] at h
      exact decodeText_error _ _ _ h

theorem decodeIndicators_error (s : List Nat) (x : DecodeError)
    (h : decodeIndicators s = .error x) : x = .unicodeDecodeError := by
  unfold decodeIndicators at h
  rcases exBind_eq_error _ _ _ h with h1 | ⟨a, _, h2⟩
  · exact asciiDecode_error _ _ h1
  · rcases a with _ | ⟨x1, _ | ⟨x2, _ | ⟨x3, t⟩⟩⟩ <;> cases h2

theorem subfieldCodeStep_error (chunk : List Nat) (x : DecodeError)
    (h : subfieldCodeStep chunk = .error x) : x = .indexError := by
  unfold subfieldCodeStep at h
  rcases chunk with _ | ⟨c, cs⟩
  · cases h
    rfl
  · simp only [] at h
    by_cases hc : c < 0x80
    · rw [if_pos hc] at h
      cases h
    · rw [if_neg hc] at h
      cases hn : normalize_subfield_code (c :: cs) with
      | none =>
        rw [hn] at h
        cases h
        rfl
      | some p =>
        obtain ⟨a, b⟩ := p
        rw [hn] at h
        cases h

theorem decodeSubfields_error (dec : List Nat → Except DecodeError (List Nat))
    (hdec : ∀ bs x, dec bs = .error x → x = .unicodeDecodeError)
    (l : List (List Nat)) : ∀ x, decodeSubfields dec l = .error x →
      x = .indexError ∨ x = .unicodeDecodeError := by
  induction l with
  | nil => intro x h; cases h
  | cons chunk rest ih =>
    intro x h
    rw [decodeSubfields] at h
    by_cases he : chunk.isEmpty
    · rw [if_pos he] at h
      exact ih x h
    · rw [if_neg he] at h
      rcases exBind_eq_error _ _ _ h with h1 | ⟨a, _, h2⟩
      · exact Or.inl (subfieldCodeStep_error _ _ h1)
      · rcases exBind_eq_error _ _ _ h2 with h3 | ⟨v, _, h4⟩
        · exact Or.inr (hdec _ _ h3)
        · rcases exBind_eq_error _ _ _ h4 with h5 | ⟨r, _, h6⟩
          · exact ih x h5
          · cases h6

theorem decodeFieldData_ne_rli (encU : Enc) (l9a paramF : Bool)
    (entry_tag entry_data : List Nat) (x : DecodeError)
    (h : decodeFieldData encU l9a paramF entry_tag entry_data = .error x) :
    x ≠ .recordLeaderInvalid := by
  unfold decodeFieldData at h
  by_cases hctl : (strLt entry_tag tag010 && pyIsdigit entry_tag) = true
  · rw [if_pos hctl] at h
    rcases exBind_eq_error _ _ _ h with h1 | ⟨d, _, h2⟩
    · rw [decodeText_error _ _ _ h1]
      decide
    · cases h2
  · rw [if_neg hctl] at h
    rcases exBind_eq_error _ _ _ h with h1 | ⟨iw, _, h2⟩
    · rw [decodeIndicators_error _ _ h1]
      decide
    · rcases exBind_eq_error _ _ _ h2 with h3 | ⟨sw, _, h4⟩
      · rcases decodeSubfields_error _ (subfieldValueDecode_error l9a paramF encU) _ _ h3
          with h5 | h5 <;> rw [h5] <;> decide
      · cases h4

theorem decodeEntry_ne_rli (marc : List Nat) (base : Int) (encU : Enc)
    (l9a paramF : Bool) (entry : List Nat) (x : DecodeError)
    (h : decodeEntry marc base encU l9a paramF entry = .error x) :
    x ≠ .recordLeaderInvalid := by
  unfold decodeEntry at h
  rcases exBind_eq_error _ _ _ h with h1 | ⟨el, _, h2⟩
  · rw [parseIntOr_error _ _ h1]
    decide
  · rcases exBind_eq_error _ _ _ h2 with h3 | ⟨eo, _, h4⟩
    · rw [parseIntOr_error _ _ h3]
      decide
    · exact decodeFieldData_ne_rli _ _ _ _ _ _ h4

theorem decodeFieldsGo_ne_rli (marc : List Nat) (base : Int) (encU : Enc)
    (l9a paramF : Bool) (dir : List Nat) (r : Nat) : ∀ k x,
    decodeFieldsGo marc base encU l9a paramF dir k r = .error x →
      x ≠ .recordLeaderInvalid := by
  induction r with
  | zero => intro k x h; cases h
  | succ r' ih =>
    intro k x h
    rw [decodeFieldsGo] at h
    rcases exBind_eq_error _ _ _ h with h1 | ⟨fw, _, h2⟩
    · exact decodeEntry_ne_rli _ _ _ _ _ _ _ h1
    · rcases exBind_eq_error _ _ _ h2 with h3 | ⟨rs, _, h4⟩
      · exact ih (k + 1) x h3
      · cases h4

theorem decodeBody_ne_rli (marc leader : List Nat) (selfF paramF : Bool)
    (enc : Enc) (x : DecodeError)
    (h : decodeBody marc leader selfF paramF enc = .error x) :
    x ≠ .recordLeaderInvalid := by
  unfold decodeBody at h
  simp only [] at h
  rcases exBind_eq_error _ _ _ h with h1 | ⟨ba, _, h2⟩
  · rw [parseIntOr_error _ _ h1]
    decide
  · by_cases hb0 : ba ≤ 0
    · rw [if_pos hb0] at h2
      cases h2
      decide
    · rw [if_neg hb0] at h2
      by_cases hb1 : (marc.length : Int) ≤ ba
      · rw [if_pos hb1] at h2
        cases h2
        decide
      · rw [if_neg hb1] at h2
        rcases exBind_eq_error _ _ _ h2 with h3 | ⟨dcl, _, h4⟩
        · rw [parseIntOr_error _ _ h3]
          decide
        · by_cases ht : (marc.length : Int) < dcl
          · rw [if_pos ht] at h4
            cases h4
            decide
          · rw [if_neg ht] at h4
            rcases exBind_eq_error _ _ _ h4 with h5 | ⟨dir, _, h6⟩
            · rw [asciiDecode_error _ _ h5]
              decide
            · by_cases hm : dir.length % 12 ≠ 0
              · rw [if_pos hm] at h6
                cases h6
                decide
              · rw [if_neg hm] at h6
                rcases exBind_eq_error _ _ _ h6 with h7 | ⟨fw, _, h8⟩
                · exact decodeFieldsGo_ne_rli _ _ _ _ _ _ _ _ _ h7
                · by_cases hz : dir.length / 12 = 0
                  · rw [if_pos hz] at h8
                    cases h8
                    decide
                  · rw [if_neg hz] at h8
                    cases h8

/-- C7 (amended): `decode_marc` fails with `RecordLeaderInvalid` exactly
when the buffer is SHORTER than 24 bytes and those bytes are all ASCII.
A non-ASCII byte among the first 24 raises a UnicodeDecodeError instead
(see the counterexample), and a buffer whose first 24 bytes are ASCII and
whose length is at least 24 can never produce `RecordLeaderInvalid`. -/
theorem C7_record_leader_invalid (marc : List Nat) (selfF paramF : Bool) (e : Enc) :
    decode_marc marc selfF paramF e = .error .recordLeaderInvalid ↔
      marc.length < 24 ∧ ∀ b ∈ marc.take 24, b < 0x80 := by
  constructor
  · intro h
    unfold decode_marc at h
    cases hA : asciiDecode (sliceN marc 0 24) with
    | error e' =>
      rw [hA] at h
      rw [show exBind (Except.error e' :
          Except DecodeError (List Nat)) _ = .error e' from rfl] at h
      cases h
      exact absurd (asciiDecode_error _ _ hA) (by decide)
    | ok ldr =>
      rw [hA] at h
      rw [exBind_ok] at h
      obtain ⟨hval, hascii⟩ := asciiDecode_ok _ _ hA
      subst hval
      by_cases hl : (sliceN marc 0 24).length ≠ 24
      · rw [sliceN_zero] at hl hascii
        have hlt : (marc.take 24).length = min 24 marc.length := List.length_take 24 marc
        exact ⟨by omega, hascii⟩
      · rw [if_neg hl] at h
        exact absurd rfl (decodeBody_ne_rli _ _ _ _ _ _ h)
  · rintro ⟨hlen, hascii⟩
    unfold decode_marc
    have hsl : sliceN marc 0 24 = marc := by
      rw [sliceN_zero]
      exact List.take_of_length_le (by omega)
    rw [hsl]
    rw [asciiDecode_of_ascii marc (fun b hb => hascii b (by
      rw [List.take_of_length_le (show marc.length ≤ 24 by omega)]
      exact hb))]
    rw [exBind_ok, if_pos (by omega)]

/-- Witness for C7 at a concrete 3-byte ASCII buffer. -/
theorem C7_record_leader_invalid_witness :
    decode_marc [0x30, 0x31, 0x32] false false Enc.latin1
        = .error .recordLeaderInvalid ∧
      ([0x30, 0x31, 0x32] : List Nat).length < 24 ∧
      ∀ b ∈ ([0x30, 0x31, 0x32] : List Nat).take 24, b < 0x80 := by
  refine ⟨?_, by decide, by decide⟩
  exact (C7_record_leader_invalid [0x30, 0x31, 0x32] false false Enc.latin1).mpr
    ⟨by decide, by decide⟩

/-- C7 (counterexample to the claim as stated): a 24-byte buffer of 0xFF
bytes has non-ASCII bytes in structural positions; the claim says decode
fails with `RecordLeaderInvalid` there, but it fails with a
`UnicodeDecodeError` instead. -/
theorem C7_counterexample :
    decode_marc (List.replicate 24 0xFF) false false Enc.latin1
        = .error .unicodeDecodeError ∧
      DecodeError.unicodeDecodeError ≠ DecodeError.recordLeaderInvalid := by
  decide

/-! ### Claim C5: encoding choice during decode -/

/-- The 24-byte all-ASCII leader of the C5 test family (record length 60,
base address 49, leader byte 9 a space). -/
def c5leader : List Nat :=
  [0x30, 0x30, 0x30, 0x36, 0x30] ++ List.replicate 7 0x20
    ++ [0x30, 0x30, 0x30, 0x34, 0x39] ++ List.replicate 7 0x20

/-- The two directory entries of the C5 test family: control field `001`
of length 3 at offset 0, data field `245` of length 7 at offset 3. -/
def c5dir : List Nat :=
  [0x30, 0x30, 0x31] ++ [0x30, 0x30, 0x30, 0x33] ++ [0x30, 0x30, 0x30, 0x30, 0x30]
    ++ ([0x32, 0x34, 0x35] ++ [0x30, 0x30, 0x30, 0x37] ++ [0x30, 0x30, 0x30, 0x30, 0x33])

/-- The field bytes of the C5 test family: the two parameter bytes appear
both as the control field's data and as the subfield `a` value of the data
field. -/
def c5fields (b1 b2 : Nat) : List Nat :=
  [b1, b2, 0x1E] ++ ([0x20, 0x20, 0x1F, 0x61, b1, b2, 0x1E] ++ [0x1D])

/-- A complete 60-byte record buffer carrying the bytes `b1 b2` in a
control field and in a subfield value. -/
def c5buf (b1 b2 : Nat) : List Nat :=
  c5leader ++ (c5dir ++ ([0x1E] ++ c5fields b1 b2))

theorem c5_decode (b1 b2 : Nat) (selfF : Bool) (ctl t : List Nat)
    (h : utf8Decode [b1, b2] = some t) (h1 : b1 ≠ 0x1F) (h2 : b2 ≠ 0x1F)
    (hctl : decodeText (if selfF then Enc.utf8 else Enc.latin1) [b1, b2] = .ok ctl) :
    decode_marc (c5buf b1 b2) selfF true .latin1
      = .ok (⟨c5leader, [Field.control [0x30, 0x30, 0x31] ctl,
          Field.data [0x32, 0x34, 0x35] 0x20 0x20 [(0x61, t)]]⟩, []) := by
  have hl24 : c5leader.length = 24 := by decide
  have hd24 : c5dir.length = 24 := by decide
  have hlen : (c5buf b1 b2).length = 60 := rfl
  have hs024 : sliceN (c5buf b1 b2) 0 24 = c5leader := by
    show sliceN (c5leader ++ (c5dir ++ ([0x1E] ++ c5fields b1 b2))) 0 24 = c5leader
    rw [sliceN_zero, show (24 : Nat) = c5leader.length from by decide, List.take_left]
  have hs1217 : sliceN (c5buf b1 b2) 12 17 = [0x30, 0x30, 0x30, 0x34, 0x39] := by
    show sliceN (c5leader ++ (c5dir ++ ([0x1E] ++ c5fields b1 b2))) 12 17 = _
    rw [sliceN_append_left _ _ _ _ (by omega)]
    decide
  have hs05 : sliceN c5leader 0 5 = [0x30, 0x30, 0x30, 0x36, 0x30] := by decide
  have hs2448 : sliceN (c5buf b1 b2) 24 48 = c5dir := by
    show sliceN (c5leader ++ (c5dir ++ ([0x1E] ++ c5fields b1 b2))) 24 48 = c5dir
    rw [sliceN_append_right _ _ _ _ (by omega), hl24]
    norm_num
    rw [sliceN_zero, show (24 : Nat) = c5dir.length from by decide, List.take_left]
  have hdata1 : sliceN (c5buf b1 b2) 49 51 = [b1, b2] := by
    show sliceN (c5leader ++ (c5dir ++ ([0x1E] ++ c5fields b1 b2))) 49 51 = _
    rw [sliceN_append_right _ _ _ _ (by omega), hl24]
    norm_num
    rw [sliceN_append_right _ _ _ _ (by omega), hd24]
    norm_num
    rfl
  have hdata2 : sliceN (c5buf b1 b2) 52 58 = [0x20, 0x20, 0x1F, 0x61, b1, b2] := by
    show sliceN (c5leader ++ (c5dir ++ ([0x1E] ++ c5fields b1 b2))) 52 58 = _
    rw [sliceN_append_right _ _ _ _ (by omega), hl24]
    norm_num
    rw [sliceN_append_right _ _ _ _ (by omega), hd24]
    norm_num
    rfl
  have hsplit : pySplit 0x1F [0x20, 0x20, 0x1F, 0x61, b1, b2]
      = [[0x20, 0x20], [0x61, b1, b2]] := by
    rw [show ([0x20, 0x20, 0x1F, 0x61, b1, b2] : List Nat)
        = [0x20, 0x20] ++ 0x1F :: [0x61, b1, b2] from rfl]
    rw [pySplit_append_sep _ _ _ (by decide)]
    rw [pySplit_sep_free _ _ (by
      intro hc
      rcases List.mem_cons.1 hc with hx | hx
      · exact absurd hx.symm (by decide)
      · rcases List.mem_cons.1 hx with hy | hy
        · exact h1 hy.symm
        · rcases List.mem_cons.1 hy with hz | hz
          · exact h2 hz.symm
          · cases hz)]
  have hentry1 : decodeEntry (c5buf b1 b2) 49 (if selfF then Enc.utf8 else Enc.latin1)
      false true (sliceN c5dir 0 12)
      = .ok (Field.control [0x30, 0x30, 0x31] ctl, []) := by
    rw [show sliceN c5dir 0 12
        = [0x30, 0x30, 0x31, 0x30, 0x30, 0x30, 0x33, 0x30, 0x30, 0x30, 0x30, 0x30]
      from by decide]
    unfold decodeEntry
    simp only []
    rw [show parseIntOr (sliceN [0x30, 0x30, 0x31, 0x30, 0x30, 0x30, 0x33, 0x30, 0x30,
        0x30, 0x30, 0x30] 3 7) = .ok (3 : Int) from by decide]
    rw [show parseIntOr (sliceN [0x30, 0x30, 0x31, 0x30, 0x30, 0x30, 0x33, 0x30, 0x30,
        0x30, 0x30, 0x30] 7 12) = .ok (0 : Int) from by decide]
    simp only [exBind_ok]
    rw [show pySlice (c5buf b1 b2) (49 + 0) (49 + 0 + 3 - 1)
        = sliceN (c5buf b1 b2) 49 51 from by
      rw [pySlice_nonneg _ _ _ (by omega) (by omega)]
      norm_num
      rfl]
    rw [hdata1]
    unfold decodeFieldData
    rw [if_pos (by decide)]
    rw [show sliceN [0x30, 0x30, 0x31, 0x30, 0x30, 0x30, 0x33, 0x30, 0x30, 0x30, 0x30,
        0x30] 0 3 = [0x30, 0x30, 0x31] from by decide]
    rw [hctl]
    rfl
  have hsub : decodeSubfields (subfieldValueDecode false true
        (if selfF then Enc.utf8 else Enc.latin1)) [[0x61, b1, b2]]
      = .ok ([(0x61, t)], []) := by
    rw [decodeSubfields, if_neg (by simp)]
    rw [show subfieldCodeStep [0x61, b1, b2] = .ok (0x61, 1, []) from by
      unfold subfieldCodeStep
      simp only []
      rw [if_pos (by decide)]]
    simp only [exBind_ok]
    rw [show ([0x61, b1, b2] : List Nat).drop 1 = [b1, b2] from rfl]
    rw [show subfieldValueDecode false true (if selfF then Enc.utf8 else Enc.latin1)
        [b1, b2] = .ok t from by
      unfold subfieldValueDecode
      rw [if_pos (by decide)]
      show decodeText Enc.utf8 [b1, b2] = Except.ok t
      unfold decodeText
      rw [h]]
    simp only [exBind_ok]
    rw [decodeSubfields]
    rfl
  have hentry2 : decodeEntry (c5buf b1 b2) 49 (if selfF then Enc.utf8 else Enc.latin1)
      false true (sliceN c5dir 12 24)
      = .ok (Field.data [0x32, 0x34, 0x35] 0x20 0x20 [(0x61, t)], []) := by
    rw [show sliceN c5dir 12 24
        = [0x32, 0x34, 0x35, 0x30, 0x30, 0x30, 0x37, 0x30, 0x30, 0x30, 0x30, 0x33]
      from by decide]
    unfold decodeEntry
    simp only []
    rw [show parseIntOr (sliceN [0x32, 0x34, 0x35, 0x30, 0x30, 0x30, 0x37, 0x30, 0x30,
        0x30, 0x30, 0x33] 3 7) = .ok (7 : Int) from by decide]
    rw [show parseIntOr (sliceN [0x32, 0x34, 0x35, 0x30, 0x30, 0x30, 0x37, 0x30, 0x30,
        0x30, 0x30, 0x33] 7 12) = .ok (3 : Int) from by decide]
    simp only [exBind_ok]
    rw [show pySlice (c5buf b1 b2) (49 + 3) (49 + 3 + 7 - 1)
        = sliceN (c5buf b1 b2) 52 58 from by
      rw [pySlice_nonneg _ _ _ (by omega) (by omega)]
      norm_num
      rfl]
    rw [hdata2]
    unfold decodeFieldData
    rw [if_neg (by decide)]
    rw [show sliceN [0x32, 0x34, 0x35, 0x30, 0x30, 0x30, 0x37, 0x30, 0x30, 0x30, 0x30,
        0x33] 0 3 = [0x32, 0x34, 0x35] from by decide]
    simp only [hsplit]
    rw [show ([[0x20, 0x20], [0x61, b1, b2]] : List (List Nat)).headD [] = [0x20, 0x20]
      from rfl]
    rw [show decodeIndicators [0x20, 0x20] = .ok ((0x20, 0x20), []) from by decide]
    simp only [exBind_ok]
    rw [show ([[0x20, 0x20], [0x61, b1, b2]] : List (List Nat)).tail = [[0x61, b1, b2]]
      from rfl]
    rw [hsub]
    rfl
  have hloop : decodeFieldsGo (c5buf b1 b2) 49 (if selfF then Enc.utf8 else Enc.latin1)
      false true c5dir 0 2
      = .ok ([Field.control [0x30, 0x30, 0x31] ctl,
          Field.data [0x32, 0x34, 0x35] 0x20 0x20 [(0x61, t)]], []) := by
    show decodeFieldsGo (c5buf b1 b2) 49 (if selfF then Enc.utf8 else Enc.latin1)
      false true c5dir 0 (1 + 1) = _
    rw [decodeFieldsGo]
    rw [show sliceN c5dir (12 * 0) (12 * 0 + 12) = sliceN c5dir 0 12 from by norm_num]
    rw [hentry1]
    simp only [exBind_ok]
    show exBind (decodeFieldsGo (c5buf b1 b2) 49
      (if selfF then Enc.utf8 else Enc.latin1) false true c5dir (0 + 1) (0 + 1)) _ = _
    rw [decodeFieldsGo]
    rw [show sliceN c5dir (12 * (0 + 1)) (12 * (0 + 1) + 12) = sliceN c5dir 12 24 from by
      norm_num]
    rw [hentry2]
    simp only [exBind_ok]
    rw [decodeFieldsGo]
    simp only [exBind_ok]
    rfl
  unfold decode_marc
  rw [hs024, asciiDecode_of_ascii c5leader (by decide)]
  simp only [exBind_ok]
  rw [if_neg (by decide)]
  unfold decodeBody
  simp only []
  rw [show (c5leader.getD 9 0 == 0x61) = false from by decide]
  simp only [Bool.false_or]
  rw [hs1217]
  rw [show parseIntOr [0x30, 0x30, 0x30, 0x34, 0x39] = .ok (49 : Int) from by decide]
  simp only [exBind_ok]
  rw [if_neg (by decide), hlen, if_neg (by decide)]
  rw [hs05]
  rw [show parseIntOr [0x30, 0x30, 0x30, 0x36, 0x30] = .ok (60 : Int) from by decide]
  simp only [exBind_ok]
  rw [if_neg (by decide)]
  rw [show pySlice (c5buf b1 b2) 24 ((49 : Int) - 1) = sliceN (c5buf b1 b2) 24 48 from by
    rw [pySlice_nonneg _ _ _ (by omega) (by omega)]
    norm_num
    rfl]
  rw [hs2448, asciiDecode_of_ascii c5dir (by decide)]
  simp only [exBind_ok]
  rw [hd24, if_neg (by decide)]
  rw [show (24 : Nat) / 12 = 2 from by decide]
  rw [hloop]
  simp only [exBind_ok]
  rw [if_neg (by decide)]

/-- C5 (amended): with leader byte 9 a space, passing `force_utf8` as the
decode-call PARAMETER makes subfield values UTF-8-decoded but leaves
control-field data decoded in the default encoding, because line 266 reads
the record attribute `self.force_utf8` while line 351 reads the method
parameter; only setting the attribute as well makes the control field
UTF-8 too. -/
theorem C5_force_utf8_parameter_scope (b1 b2 : Nat) (t : List Nat)
    (h : utf8Decode [b1, b2] = some t) (h1 : b1 ≠ 0x1F) (h2 : b2 ≠ 0x1F) :
    decode_marc (c5buf b1 b2) false true .latin1
        = .ok (⟨c5leader, [Field.control [0x30, 0x30, 0x31] (latin1ToCp [b1, b2]),
            Field.data [0x32, 0x34, 0x35] 0x20 0x20 [(0x61, t)]]⟩, []) ∧
      decode_marc (c5buf b1 b2) true true .latin1
        = .ok (⟨c5leader, [Field.control [0x30, 0x30, 0x31] t,
            Field.data [0x32, 0x34, 0x35] 0x20 0x20 [(0x61, t)]]⟩, []) := by
  constructor
  · exact c5_decode b1 b2 false (latin1ToCp [b1, b2]) t h h1 h2 rfl
  · refine c5_decode b1 b2 true t t h h1 h2 ?_
    show decodeText Enc.utf8 [b1, b2] = Except.ok t
    unfold decodeText
    rw [h]

/-- Witness for C5 at the UTF-8 bytes `0xC3 0xA1` ("á"). -/
theorem C5_force_utf8_parameter_scope_witness :
    utf8Decode [0xC3, 0xA1] = some [0xE1] ∧ (0xC3 : Nat) ≠ 0x1F ∧ (0xA1 : Nat) ≠ 0x1F ∧
      (decode_marc (c5buf 0xC3 0xA1) false true .latin1
          = .ok (⟨c5leader, [Field.control [0x30, 0x30, 0x31] (latin1ToCp [0xC3, 0xA1]),
              Field.data [0x32, 0x34, 0x35] 0x20 0x20 [(0x61, [0xE1])]]⟩, []) ∧
        decode_marc (c5buf 0xC3 0xA1) true true .latin1
          = .ok (⟨c5leader, [Field.control [0x30, 0x30, 0x31] [0xE1],
              Field.data [0x32, 0x34, 0x35] 0x20 0x20 [(0x61, [0xE1])]]⟩, [])) :=
  ⟨by decide, by decide, by decide,
    C5_force_utf8_parameter_scope 0xC3 0xA1 [0xE1] (by decide) (by decide) (by decide)⟩

/-- C5 (counterexample to the claim as stated): decoding with only the
method parameter `force_utf8=True` leaves the control field's UTF-8 bytes
`0xC3 0xA1` decoded as Latin-1 (two code points) while the identical
subfield value bytes become the single code point U+00E1 — the claim that
`force_utf8` makes ALL textual content UTF-8-decoded fails for control
fields. -/
theorem C5_counterexample :
    decode_marc (c5buf 0xC3 0xA1) false true .latin1
        = .ok (⟨c5leader, [Field.control [0x30, 0x30, 0x31] [0xC3, 0xA1],
            Field.data [0x32, 0x34, 0x35] 0x20 0x20 [(0x61, [0xE1])]]⟩, []) ∧
      ([0xC3, 0xA1] : List Nat) ≠ [0xE1] := by
  decide

/-! ### Claim C3: leader length self-consistency of the encoder -/

theorem sliceN_quad_left (A B C D : List Nat) (hA : A.length = 5) :
    sliceN (A ++ B ++ C ++ D) 0 5 = A := by
  rw [sliceN_zero]
  rw [show A ++ B ++ C ++ D = A ++ (B ++ (C ++ D)) from by simp [List.append_assoc]]
  rw [List.take_append_of_le_length (by omega)]
  exact List.take_of_length_le (by omega)

theorem sliceN_quad_third (A B C D : List Nat) (hA : A.length = 5) (hB : B.length = 7)
    (hC : C.length = 5) : sliceN (A ++ B ++ C ++ D) 12 17 = C := by
  rw [show A ++ B ++ C ++ D = (A ++ B) ++ (C ++ D) from by simp [List.append_assoc]]
  rw [sliceN_append_right _ _ _ _ (by simp only [List.length_append, hA, hB]; omega)]
  rw [show (A ++ B).length = 12 from by simp [hA, hB]]
  norm_num
  rw [sliceN_zero, List.take_append_of_le_length (by omega)]
  exact List.take_of_length_le (by omega)

/-- C3: for a record with a well-formed (24-byte, ASCII) leader whose
serialized form fits the fixed-width limits (total length at most 99999
bytes), the output of `as_marc` carries in bytes 0..5 its own total byte
length and in bytes 12..17 the offset of the first field byte — 24 plus
the directory length including its terminator — both as zero-padded
5-digit decimals. -/
theorem C3_as_marc_leader_consistent (r : Record) (fd : List Nat × List Nat)
    (out : List Nat)
    (hgo : asMarcGo (encOf r) 0 r.fields = some fd)
    (hm : as_marc r = some out)
    (hldr : r.leader.length = 24)
    (hla : ∀ c ∈ r.leader, c < 0x80)
    (hsize : out.length ≤ 99999) :
    out.length = 24 + (fd.2.length + 1) + (fd.1.length + 1) ∧
      sliceN out 0 5 = fmtZ 5 out.length ∧
      sliceN out 12 17 = fmtZ 5 (24 + (fd.2.length + 1)) := by
  unfold as_marc at hm
  simp only [] at hm
  rw [hgo] at hm
  simp only [Option.some_bind] at hm
  have hstr : ∀ c ∈ (fmtZ 5 (24 + (fd.2 ++ [0x1E]).length + (fd.1 ++ [0x1D]).length)
      ++ sliceN r.leader 5 12 ++ fmtZ 5 (24 + (fd.2 ++ [0x1E]).length)
      ++ r.leader.drop 17), c < 0x80 := by
    intro c hc
    rcases List.mem_append.1 hc with h1 | h1
    · rcases List.mem_append.1 h1 with h2 | h2
      · rcases List.mem_append.1 h2 with h3 | h3
        · have := fmtZ_mem _ _ c h3
          omega
        · simp only [sliceN] at h3
          exact hla c (List.mem_of_mem_take (List.mem_of_mem_drop h3))
      · have := fmtZ_mem _ _ c h2
        omega
    · exact hla c (List.mem_of_mem_drop h1)
  rw [encodeText_ascii _ _ hstr] at hm
  simp only [Option.some_bind, Option.some.injEq] at hm
  subst hm
  have hB : (sliceN r.leader 5 12).length = 7 := by
    simp [sliceN, hldr]
  have hD : (r.leader.drop 17).length = 7 := by
    simp [hldr]
  simp only [List.length_append, List.length_singleton, hB, hD] at hsize ⊢
  have hten : (10 : Nat) ^ 5 = 100000 := by norm_num
  have h5a : 5 ≤ (fmtZ 5 (24 + (fd.2.length + 1) + (fd.1.length + 1))).length := by
    rw [fmtZ_length]
    omega
  have h5c : 5 ≤ (fmtZ 5 (24 + (fd.2.length + 1))).length := by
    rw [fmtZ_length]
    omega
  have hA5 : (fmtZ 5 (24 + (fd.2.length + 1) + (fd.1.length + 1))).length = 5 :=
    fmtZ_length_of_lt _ _ (by norm_num) (by omega)
  have hC5 : (fmtZ 5 (24 + (fd.2.length + 1))).length = 5 :=
    fmtZ_length_of_lt _ _ (by norm_num) (by omega)
  refine ⟨by omega, ?_, ?_⟩
  · rw [show (fmtZ 5 (24 + (fd.2.length + 1) + (fd.1.length + 1))).length
        + 7 + (fmtZ 5 (24 + (fd.2.length + 1))).length + 7 + (fd.2.length + 1)
        + (fd.1.length + 1) = 24 + (fd.2.length + 1) + (fd.1.length + 1) from by omega]
    rw [sliceN_append_left _ _ _ _ (by
      simp only [List.length_append]
      omega)]
    rw [sliceN_append_left _ _ _ _ (by
      simp only [List.length_append]
      omega)]
    exact sliceN_quad_left _ _ _ _ hA5
  · rw [sliceN_append_left _ _ _ _ (by
      simp only [List.length_append]
      omega)]
    rw [sliceN_append_left _ _ _ _ (by
      simp only [List.length_append]
      omega)]
    exact sliceN_quad_third _ _ _ _ hA5 hB hC5

/-- Witness for C3 at a one-control-field record. -/
theorem C3_as_marc_leader_consistent_witness :
    asMarcGo (encOf ⟨List.replicate 24 0x20,
          [Field.control [0x30, 0x30, 0x31] [0x41]], false⟩) 0
        [Field.control [0x30, 0x30, 0x31] [0x41]]
      = some ([0x41, 0x1E],
          [0x30, 0x30, 0x31, 0x30, 0x30, 0x30, 0x32, 0x30, 0x30, 0x30, 0x30, 0x30]) ∧
    as_marc ⟨List.replicate 24 0x20, [Field.control [0x30, 0x30, 0x31] [0x41]], false⟩
      = some ([0x30, 0x30, 0x30, 0x34, 0x30] ++ List.replicate 7 0x20
          ++ [0x30, 0x30, 0x30, 0x33, 0x37] ++ List.replicate 7 0x20
          ++ ([0x30, 0x30, 0x31, 0x30, 0x30, 0x30, 0x32, 0x30, 0x30, 0x30, 0x30, 0x30]
            ++ [0x1E]) ++ ([0x41, 0x1E] ++ [0x1D])) ∧
    (([0x30, 0x30, 0x30, 0x34, 0x30] ++ List.replicate 7 0x20
          ++ [0x30, 0x30, 0x30, 0x33, 0x37] ++ List.replicate 7 0x20
          ++ ([0x30, 0x30, 0x31, 0x30, 0x30, 0x30, 0x32, 0x30, 0x30, 0x30, 0x30, 0x30]
            ++ [0x1E]) ++ ([0x41, 0x1E] ++ [0x1D])) : List Nat).length
      = 24 + (([0x30, 0x30, 0x31, 0x30, 0x30, 0x30, 0x32, 0x30, 0x30, 0x30, 0x30,
          0x30] : List Nat).length + 1) + (([0x41, 0x1E] : List Nat).length + 1) ∧
    sliceN ([0x30, 0x30, 0x30, 0x34, 0x30] ++ List.replicate 7 0x20
          ++ [0x30, 0x30, 0x30, 0x33, 0x37] ++ List.replicate 7 0x20
          ++ ([0x30, 0x30, 0x31, 0x30, 0x30, 0x30, 0x32, 0x30, 0x30, 0x30, 0x30, 0x30]
            ++ [0x1E]) ++ ([0x41, 0x1E] ++ [0x1D])) 0 5
      = fmtZ 5 ([0x30, 0x30, 0x30, 0x34, 0x30] ++ List.replicate 7 0x20
          ++ [0x30, 0x30, 0x30, 0x33, 0x37] ++ List.replicate 7 0x20
          ++ ([0x30, 0x30, 0x31, 0x30, 0x30, 0x30, 0x32, 0x30, 0x30, 0x30, 0x30, 0x30]
            ++ [0x1E]) ++ ([0x41, 0x1E] ++ [0x1D])).length ∧
    sliceN ([0x30, 0x30, 0x30, 0x34, 0x30] ++ List.replicate 7 0x20
          ++ [0x30, 0x30, 0x30, 0x33, 0x37] ++ List.replicate 7 0x20
          ++ ([0x30, 0x30, 0x31, 0x30, 0x30, 0x30, 0x32, 0x30, 0x30, 0x30, 0x30, 0x30]
            ++ [0x1E]) ++ ([0x41, 0x1E] ++ [0x1D])) 12 17
      = fmtZ 5 (24 + (([0x30, 0x30, 0x31, 0x30, 0x30, 0x30, 0x32, 0x30, 0x30, 0x30,
          0x30, 0x30] : List Nat).length + 1)) := by
  refine ⟨by decide, by decide, ?_⟩
  have h := C3_as_marc_leader_consistent
    ⟨List.replicate 24 0x20, [Field.control [0x30, 0x30, 0x31] [0x41]], false⟩
    ([0x41, 0x1E],
      [0x30, 0x30, 0x31, 0x30, 0x30, 0x30, 0x32, 0x30, 0x30, 0x30, 0x30, 0x30])
    ([0x30, 0x30, 0x30, 0x34, 0x30] ++ List.replicate 7 0x20
      ++ [0x30, 0x30, 0x30, 0x33, 0x37] ++ List.replicate 7 0x20
      ++ ([0x30, 0x30, 0x31, 0x30, 0x30, 0x30, 0x32, 0x30, 0x30, 0x30, 0x30, 0x30]
        ++ [0x1E]) ++ ([0x41, 0x1E] ++ [0x1D]))
    (by decide) (by decide) (by decide) (by decide) (by decide)
  exact h

/-! ### Claim C1: structural round trip — well-formedness and the encoder -/

/-- An ASCII graphic character (0x20–0x7E): printable, single-byte in both
charsets, and distinct from the three MARC structural delimiters. -/
def asciiGraphic (c : Nat) : Bool := decide (0x20 ≤ c ∧ c ≤ 0x7E)

/-- A well-formed MARC tag: exactly three ASCII graphic characters. -/
def tagWf (tag : List Nat) : Bool := decide (tag.length = 3) && tag.all asciiGraphic

/-- Well-formedness of a field for the round-trip statement: a control
field's tag passes the `entry_tag < "010" and entry_tag.isdigit()` test the
decoder uses for the control/data split and a data field's does not, and
all content (control data, indicators, subfield codes and values) is ASCII
graphic. -/
def fieldWf : Field → Bool
  | .control tag d =>
    tagWf tag && (strLt tag tag010 && pyIsdigit tag) && d.all asciiGraphic
  | .data tag i1 i2 subs =>
    tagWf tag && !(strLt tag tag010 && pyIsdigit tag) && asciiGraphic i1
      && asciiGraphic i2 && subs.all fun p => asciiGraphic p.1 && p.2.all asciiGraphic

/-- Well-formedness of a record: a 24-byte ASCII leader and well-formed
fields. -/
def recordWf (r : Record) : Bool :=
  decide (r.leader.length = 24) && r.leader.all (fun c => decide (c < 0x80))
    && r.fields.all fieldWf

/-- The bytes of a field before the `END_OF_FIELD` terminator, as
`Field.as_marc` lays them out. -/
def fieldBody : Field → List Nat
  | .control _ d => d
  | .data _ i1 i2 subs => [i1, i2] ++ (subs.map fun p => 0x1F :: p.1 :: p.2).flatten

/-- The full serialized bytes of one field. -/
def fieldBytes (f : Field) : List Nat := fieldBody f ++ [0x1E]

/-- The concatenated serialized bytes of a field list. -/
def fieldsBytes : List Field → List Nat
  | [] => []
  | f :: rest => fieldBytes f ++ fieldsBytes rest

/-- The directory bytes `as_marc` builds for a field list starting at the
given offset. -/
def dirBytes (off : Nat) : List Field → List Nat
  | [] => []
  | f :: rest =>
    Field.tag f ++ fmtZ 4 (fieldBytes f).length ++ fmtZ 5 off
      ++ dirBytes (off + (fieldBytes f).length) rest

theorem asciiGraphic_spec (c : Nat) (h : asciiGraphic c = true) :
    0x20 ≤ c ∧ c ≤ 0x7E := by
  simpa [asciiGraphic] using h

theorem tagWf_spec (tag : List Nat) (h : tagWf tag = true) :
    tag.length = 3 ∧ ∀ c ∈ tag, c < 0x80 := by
  simp only [tagWf, Bool.and_eq_true, decide_eq_true_eq, List.all_eq_true] at h
  exact ⟨h.1, fun c hc => by have := asciiGraphic_spec c (h.2 c hc); omega⟩

theorem fieldWf_tagWf (f : Field) (h : fieldWf f = true) :
    tagWf (Field.tag f) = true := by
  cases f with
  | control tag d =>
    simp only [fieldWf, Bool.and_eq_true] at h
    exact h.1.1
  | data tag i1 i2 subs =>
    simp only [fieldWf, Bool.and_eq_true] at h
    exact h.1.1.1.1

theorem fieldBytes_ascii (f : Field) (h : fieldWf f = true) :
    ∀ c ∈ fieldBytes f, c < 0x80 := by
  intro c hc
  rcases List.mem_append.1 hc with hb | hb
  · cases f with
    | control tag d =>
      simp only [fieldWf, Bool.and_eq_true, List.all_eq_true] at h
      simp only [fieldBody] at hb
      have := asciiGraphic_spec c (h.2 c hb)
      omega
    | data tag i1 i2 subs =>
      simp only [fieldWf, Bool.and_eq_true, List.all_eq_true] at h
      obtain ⟨⟨⟨⟨-, -⟩, h1⟩, h2⟩, hsubs⟩ := h
      simp only [fieldBody] at hb
      rcases List.mem_append.1 hb with hb2 | hb2
      · rcases List.mem_cons.1 hb2 with he | he
        · subst he
          have := asciiGraphic_spec c h1
          omega
        · rcases List.mem_cons.1 he with he2 | he2
          · subst he2
            have := asciiGraphic_spec c h2
            omega
          · cases he2
      · obtain ⟨s, hs, hcs⟩ := List.mem_flatten.1 hb2
        obtain ⟨p, hp, hps⟩ := List.mem_map.1 hs
        subst hps
        have hpq := hsubs p hp
        simp only [Bool.and_eq_true] at hpq
        obtain ⟨hpc, hpv⟩ := hpq
        rcases List.mem_cons.1 hcs with he | he
        · omega
        · rcases List.mem_cons.1 he with he2 | he2
          · subst he2
            have := asciiGraphic_spec p.1 hpc
            omega
          · have := asciiGraphic_spec c (hpv c he2)
            omega
  · rw [List.mem_singleton] at hb
    omega

theorem fieldAsMarc_wf (e : Enc) (f : Field) (h : fieldWf f = true) :
    fieldAsMarc e f = some (fieldBytes f) := by
  cases f with
  | control tag d =>
    show encodeText e (d ++ [0x1E]) = some (fieldBody (.control tag d) ++ [0x1E])
    exact encodeText_ascii e _ (fieldBytes_ascii _ h)
  | data tag i1 i2 subs =>
    show encodeText e ([i1, i2] ++ (subs.map fun p => 0x1F :: p.1 :: p.2).flatten
        ++ [0x1E]) = some (fieldBody (.data tag i1 i2 subs) ++ [0x1E])
    exact encodeText_ascii e _ (fieldBytes_ascii _ h)

theorem pyIsdigit_allDigits (tag : List Nat) (h : pyIsdigit tag = true) :
    tag ≠ [] ∧ allDigits tag = true := by
  cases tag with
  | nil => exact absurd h (by decide)
  | cons a t =>
    refine ⟨by simp, ?_⟩
    simp only [pyIsdigit, Bool.and_eq_true] at h
    simpa [allDigits] using h.2

theorem dirTagBytes_wf (e : Enc) (tag : List Nat) (ht : tagWf tag = true) :
    dirTagBytes e tag = some tag := by
  obtain ⟨h3, ha⟩ := tagWf_spec tag ht
  unfold dirTagBytes
  by_cases hd : pyIsdigit tag = true
  · rw [if_pos hd]
    obtain ⟨-, hdig⟩ := pyIsdigit_allDigits tag hd
    rw [show (3 : Nat) = tag.length from h3.symm]
    rw [fmtZ_parseNat_self tag (by omega) hdig]
  · rw [if_neg hd]
    rw [show padSpace3 tag = tag from by simp [padSpace3, h3]]
    exact encodeText_ascii e tag ha

theorem asMarcGo_wf (e : Enc) (l : List Field) (h : ∀ f ∈ l, fieldWf f = true) :
    ∀ off, asMarcGo e off l = some (fieldsBytes l, dirBytes off l) := by
  induction l with
  | nil => intro off; rfl
  | cons f rest ih =>
    intro off
    rw [asMarcGo, fieldAsMarc_wf e f (h f (List.mem_cons_self f rest))]
    simp only [Option.some_bind]
    rw [dirTagBytes_wf e (Field.tag f) (fieldWf_tagWf f (h f (List.mem_cons_self f rest)))]
    simp only [Option.some_bind]
    rw [ih (fun g hg => h g (List.mem_cons_of_mem f hg)) (off + (fieldBytes f).length)]
    simp only [Option.some_bind]
    rfl

/-! ### Claim C1: decoder-side round-trip lemmas -/

theorem decodeText_ascii (e : Enc) (s : List Nat) (h : ∀ c ∈ s, c < 0x80) :
    decodeText e s = .ok s := by
  cases e with
  | latin1 => rfl
  | utf8 =>
    unfold decodeText
    rw [utf8_roundtrip s s (encodeText_ascii Enc.utf8 s h)]

theorem subfieldValueDecode_ascii (l9a : Bool) (encU : Enc) (bs : List Nat)
    (h : ∀ c ∈ bs, 0x20 ≤ c ∧ c ≤ 0x7E) :
    subfieldValueDecode l9a false encU bs = .ok bs := by
  unfold subfieldValueDecode
  by_cases hl : (l9a || false) = true
  · rw [if_pos hl]
    exact decodeText_ascii _ _ (fun c hc => by have := h c hc; omega)
  · rw [if_neg hl]
    by_cases he : encU = Enc.latin1
    · rw [if_pos he, marc8_to_unicode_graphic bs h]
    · rw [if_neg he]
      exact decodeText_ascii _ _ (fun c hc => by have := h c hc; omega)

theorem decodeSubfields_round (l9a : Bool) (encU : Enc)
    (subs : List (Nat × List Nat))
    (h : ∀ p ∈ subs, asciiGraphic p.1 = true ∧ ∀ c ∈ p.2, 0x20 ≤ c ∧ c ≤ 0x7E) :
    decodeSubfields (subfieldValueDecode l9a false encU)
        (subs.map fun p => p.1 :: p.2) = .ok (subs, []) := by
  induction subs with
  | nil => rfl
  | cons p rest ih =>
    obtain ⟨hp1, hp2⟩ := h p (List.mem_cons_self p rest)
    rw [List.map_cons, decodeSubfields, if_neg (by simp)]
    rw [show subfieldCodeStep (p.1 :: p.2) = .ok (p.1, 1, []) from by
      unfold subfieldCodeStep
      simp only []
      rw [if_pos (by have := asciiGraphic_spec p.1 hp1; omega)]]
    simp only [exBind_ok]
    rw [show (p.1 :: p.2).drop 1 = p.2 from rfl]
    rw [subfieldValueDecode_ascii l9a encU p.2 hp2]
    simp only [exBind_ok]
    rw [ih (fun q hq => h q (List.mem_cons_of_mem p hq))]
    rfl

theorem pySplit_chunks (a : List Nat) (subs : List (Nat × List Nat)) (ha : 0x1F ∉ a)
    (h : ∀ p ∈ subs, p.1 ≠ 0x1F ∧ 0x1F ∉ p.2) :
    pySplit 0x1F (a ++ (subs.map fun p => 0x1F :: p.1 :: p.2).flatten)
      = a :: subs.map fun p => p.1 :: p.2 := by
  induction subs generalizing a with
  | nil =>
    simp only [List.map_nil, List.flatten_nil, List.append_nil]
    rw [pySplit_sep_free _ _ ha]
  | cons p rest ih =>
    simp only [List.map_cons, List.flatten_cons]
    rw [show a ++ ((0x1F :: p.1 :: p.2)
          ++ (rest.map fun p => 0x1F :: p.1 :: p.2).flatten)
        = a ++ 0x1F :: ((p.1 :: p.2) ++ (rest.map fun p => 0x1F :: p.1 :: p.2).flatten)
      from rfl]
    rw [pySplit_append_sep _ _ _ ha]
    rw [ih (p.1 :: p.2) (by
      obtain ⟨h1, h2⟩ := h p (List.mem_cons_self p rest)
      intro hm
      rcases List.mem_cons.1 hm with he | he
      · exact h1 he.symm
      · exact h2 he) (fun q hq => h q (List.mem_cons_of_mem p hq))]

theorem decodeIndicators_pair (i1 i2 : Nat) (h1 : i1 < 0x80) (h2 : i2 < 0x80) :
    decodeIndicators [i1, i2] = .ok ((i1, i2), []) := by
  unfold decodeIndicators
  rw [asciiDecode_of_ascii _ (by
    intro b hb
    rcases List.mem_cons.1 hb with he | he
    · omega
    · rcases List.mem_cons.1 he with he2 | he2
      · omega
      · cases he2)]
  rfl

theorem decodeFieldData_round (encU : Enc) (l9a : Bool) (f : Field)
    (h : fieldWf f = true) :
    decodeFieldData encU l9a false (Field.tag f) (fieldBody f) = .ok (f, []) := by
  cases f with
  | control tag d =>
    have hw := h
    simp only [fieldWf, Bool.and_eq_true] at hw
    obtain ⟨⟨-, hctl⟩, -⟩ := hw
    show decodeFieldData encU l9a false tag d = .ok (.control tag d, [])
    unfold decodeFieldData
    rw [if_pos (show (strLt tag tag010 && pyIsdigit tag) = true from by
      simp only [Bool.and_eq_true]
      exact hctl)]
    rw [decodeText_ascii encU d (fun c hc =>
      fieldBytes_ascii _ h c (List.mem_append.2 (Or.inl hc)))]
    rfl
  | data tag i1 i2 subs =>
    have hw := h
    simp only [fieldWf, Bool.and_eq_true, Bool.not_eq_true', List.all_eq_true] at hw
    obtain ⟨⟨⟨⟨htag, hnot⟩, hg1⟩, hg2⟩, hsubs⟩ := hw
    show decodeFieldData encU l9a false tag
        ([i1, i2] ++ (subs.map fun p => 0x1F :: p.1 :: p.2).flatten)
      = .ok (.data tag i1 i2 subs, [])
    unfold decodeFieldData
    rw [if_neg (by simp [hnot])]
    have hsplit2 : pySplit 0x1F
        ([i1, i2] ++ (subs.map fun p => 0x1F :: p.1 :: p.2).flatten)
        = [i1, i2] :: subs.map fun p => p.1 :: p.2 :=
      pySplit_chunks [i1, i2] subs
        (by
          intro hm
          rcases List.mem_cons.1 hm with he | he
          · have := asciiGraphic_spec i1 hg1
            omega
          · rcases List.mem_cons.1 he with he2 | he2
            · have := asciiGraphic_spec i2 hg2
              omega
            · cases he2)
        (fun p hp => by
          have hpq := hsubs p hp
          simp only [Bool.and_eq_true] at hpq
          obtain ⟨hpc, hpv⟩ := hpq
          refine ⟨by have := asciiGraphic_spec p.1 hpc; omega, ?_⟩
          intro hm
          have := asciiGraphic_spec _ (hpv _ hm)
          omega)
    simp only [hsplit2]
    rw [show (([i1, i2] :: subs.map fun p => p.1 :: p.2) : List (List Nat)).headD []
        = [i1, i2] from rfl]
    rw [decodeIndicators_pair i1 i2 (by have := asciiGraphic_spec i1 hg1; omega)
      (by have := asciiGraphic_spec i2 hg2; omega)]
    simp only [exBind_ok]
    rw [show (([i1, i2] :: subs.map fun p => p.1 :: p.2) : List (List Nat)).tail
        = subs.map fun p => p.1 :: p.2 from rfl]
    rw [decodeSubfields_round l9a encU subs (fun p hp => by
      have hpq := hsubs p hp
      simp only [Bool.and_eq_true] at hpq
      obtain ⟨hpc, hpv⟩ := hpq
      exact ⟨hpc, fun c hc => asciiGraphic_spec c (hpv c hc)⟩)]
    rfl

theorem sliceN_as_drop (l : List Nat) (a b : Nat) :
    sliceN l a b = (l.drop a).take (b - a) := by
  simp [sliceN, List.drop_take]

theorem sliceN_triple_0 (A B C : List Nat) (hA : A.length = 3) :
    sliceN (A ++ B ++ C) 0 3 = A := by
  rw [sliceN_zero]
  rw [show A ++ B ++ C = A ++ (B ++ C) from by simp [List.append_assoc]]
  rw [List.take_append_of_le_length (by omega)]
  exact List.take_of_length_le (by omega)

theorem sliceN_triple_1 (A B C : List Nat) (hA : A.length = 3) (hB : B.length = 4) :
    sliceN (A ++ B ++ C) 3 7 = B := by
  rw [show A ++ B ++ C = A ++ (B ++ C) from by simp [List.append_assoc]]
  rw [sliceN_append_right _ _ _ _ (by omega), hA]
  norm_num
  rw [sliceN_zero, List.take_append_of_le_length (by omega)]
  exact List.take_of_length_le (by omega)

theorem sliceN_triple_2 (A B C : List Nat) (hA : A.length = 3) (hB : B.length = 4)
    (hC : C.length = 5) : sliceN (A ++ B ++ C) 7 12 = C := by
  rw [sliceN_append_right _ _ _ _ (by simp only [List.length_append]; omega)]
  rw [show (A ++ B).length = 7 from by simp [hA, hB]]
  norm_num
  rw [sliceN_zero]
  exact List.take_of_length_le (by omega)

theorem dirBytes_length (fs : List Field) : ∀ off : Nat,
    (∀ f ∈ fs, fieldWf f = true ∧ (fieldBytes f).length ≤ 9999) →
    off + (fieldsBytes fs).length ≤ 99999 →
    (dirBytes off fs).length = 12 * fs.length := by
  induction fs with
  | nil => intro off _ _; rfl
  | cons f rest ih =>
    intro off h hb
    obtain ⟨hwf, hlf⟩ := h f (List.mem_cons_self f rest)
    have h3 := (tagWf_spec _ (fieldWf_tagWf f hwf)).1
    have hflen : (fieldsBytes (f :: rest)).length
        = (fieldBytes f).length + (fieldsBytes rest).length := by
      simp [fieldsBytes]
    rw [show dirBytes off (f :: rest)
        = Field.tag f ++ fmtZ 4 (fieldBytes f).length ++ fmtZ 5 off
          ++ dirBytes (off + (fieldBytes f).length) rest from rfl]
    simp only [List.length_append]
    rw [h3, fmtZ_length_of_lt 4 _ (by norm_num) (by
        have h4 : (10 : Nat) ^ 4 = 10000 := by norm_num
        omega),
      fmtZ_length_of_lt 5 off (by norm_num) (by
        have h5 : (10 : Nat) ^ 5 = 100000 := by norm_num
        omega),
      ih (off + (fieldBytes f).length) (fun g hg => h g (List.mem_cons_of_mem f hg))
        (by omega)]
    simp only [List.length_cons]
    omega

theorem dirBytes_ascii (fs : List Field) : ∀ off : Nat,
    (∀ f ∈ fs, fieldWf f = true) → ∀ c ∈ dirBytes off fs, c < 0x80 := by
  induction fs with
  | nil => intro off _ c hc; cases hc
  | cons f rest ih =>
    intro off h c hc
    rw [show dirBytes off (f :: rest)
        = Field.tag f ++ fmtZ 4 (fieldBytes f).length ++ fmtZ 5 off
          ++ dirBytes (off + (fieldBytes f).length) rest from rfl] at hc
    rcases List.mem_append.1 hc with h1 | h1
    · rcases List.mem_append.1 h1 with h2 | h2
      · rcases List.mem_append.1 h2 with h3 | h3
        · exact (tagWf_spec _ (fieldWf_tagWf f (h f (List.mem_cons_self f rest)))).2 c h3
        · have := fmtZ_mem _ _ c h3
          omega
      · have := fmtZ_mem _ _ c h2
        omega
    · exact ih (off + (fieldBytes f).length)
        (fun g hg => h g (List.mem_cons_of_mem f hg)) c h1

theorem pySlice_natCast (l : List Nat) (a b : Nat) :
    pySlice l (a : Int) (b : Int) = sliceN l a b := by
  rw [pySlice_nonneg _ _ _ (Int.natCast_nonneg a) (Int.natCast_nonneg b)]
  simp

theorem decodeEntry_round (marc : List Nat) (baseN : Nat) (encU : Enc) (l9a : Bool)
    (f : Field) (off : Nat) (tail0 : List Nat)
    (hwf : fieldWf f = true)
    (hlf : (fieldBytes f).length ≤ 9999)
    (hoff : off ≤ 99999)
    (hdrop : marc.drop (baseN + off) = fieldBytes f ++ tail0) :
    decodeEntry marc (baseN : Int) encU l9a false
        (Field.tag f ++ fmtZ 4 (fieldBytes f).length ++ fmtZ 5 off)
      = .ok (f, []) := by
  have h3 := (tagWf_spec _ (fieldWf_tagWf f hwf)).1
  have hB : (fmtZ 4 (fieldBytes f).length).length = 4 :=
    fmtZ_length_of_lt 4 _ (by norm_num) (by
      have h4 : (10 : Nat) ^ 4 = 10000 := by norm_num
      omega)
  have hC : (fmtZ 5 off).length = 5 :=
    fmtZ_length_of_lt 5 off (by norm_num) (by
      have h5 : (10 : Nat) ^ 5 = 100000 := by norm_num
      omega)
  have hlf1 : 1 ≤ (fieldBytes f).length := by
    unfold fieldBytes
    simp only [List.length_append, List.length_singleton]
    omega
  have hbody : (fieldBytes f).length = (fieldBody f).length + 1 := by
    unfold fieldBytes
    simp only [List.length_append, List.length_singleton]
  unfold decodeEntry
  simp only []
  rw [sliceN_triple_1 _ _ _ h3 hB]
  rw [show parseIntOr (fmtZ 4 (fieldBytes f).length)
      = .ok (((fieldBytes f).length : Nat) : Int) from by
    unfold parseIntOr
    rw [parseDec_fmtZ]]
  rw [sliceN_triple_2 _ _ _ h3 hB hC]
  rw [show parseIntOr (fmtZ 5 off) = .ok ((off : Nat) : Int) from by
    unfold parseIntOr
    rw [parseDec_fmtZ]]
  simp only [exBind_ok]
  rw [show ((baseN : Int) + (off : Int)) = (((baseN + off : Nat)) : Int) from by
    push_cast
    ring]
  rw [show (((baseN + off : Nat) : Int) + ((fieldBytes f).length : Int) - 1)
      = (((baseN + off + (fieldBytes f).length - 1 : Nat)) : Int) from by omega]
  rw [pySlice_natCast]
  rw [show baseN + off + (fieldBytes f).length - 1
      = (baseN + off) + ((fieldBytes f).length - 1) from by omega]
  rw [sliceN_as_drop marc (baseN + off) ((baseN + off) + ((fieldBytes f).length - 1)),
    hdrop]
  rw [show (baseN + off) + ((fieldBytes f).length - 1) - (baseN + off)
      = (fieldBody f).length from by omega]
  rw [show fieldBytes f ++ tail0 = fieldBody f ++ ([0x1E] ++ tail0) from by
    simp [fieldBytes, List.append_assoc]]
  rw [List.take_append_of_le_length (by omega)]
  rw [List.take_length]
  rw [sliceN_triple_0 _ _ _ h3]
  exact decodeFieldData_round encU l9a f hwf

theorem decodeFieldsGo_round (marc : List Nat) (baseN : Nat) (encU : Enc) (l9a : Bool)
    (dirAll : List Nat) (fs : List Field) :
    ∀ (k off : Nat) (tail0 : List Nat),
    (∀ f ∈ fs, fieldWf f = true ∧ (fieldBytes f).length ≤ 9999) →
    off + (fieldsBytes fs).length ≤ 99999 →
    dirAll.drop (12 * k) = dirBytes off fs →
    marc.drop (baseN + off) = fieldsBytes fs ++ tail0 →
    decodeFieldsGo marc (baseN : Int) encU l9a false dirAll k fs.length
      = .ok (fs, []) := by
  induction fs with
  | nil => intro k off tail0 _ _ _ _; rfl
  | cons f rest ih =>
    intro k off tail0 h hb hdir hdrop
    obtain ⟨hwf, hlf⟩ := h f (List.mem_cons_self f rest)
    have h3 := (tagWf_spec _ (fieldWf_tagWf f hwf)).1
    have hflen : (fieldsBytes (f :: rest)).length
        = (fieldBytes f).length + (fieldsBytes rest).length := by
      simp [fieldsBytes]
    rw [show (f :: rest).length = rest.length + 1 from by simp]
    rw [decodeFieldsGo]
    have hentry : sliceN dirAll (12 * k) (12 * k + 12)
        = Field.tag f ++ fmtZ 4 (fieldBytes f).length ++ fmtZ 5 off := by
      have hB : (fmtZ 4 (fieldBytes f).length).length = 4 :=
        fmtZ_length_of_lt 4 _ (by norm_num) (by
          have h4 : (10 : Nat) ^ 4 = 10000 := by norm_num
          omega)
      have hC : (fmtZ 5 off).length = 5 :=
        fmtZ_length_of_lt 5 off (by norm_num) (by
          have h5 : (10 : Nat) ^ 5 = 100000 := by norm_num
          omega)
      rw [sliceN_as_drop]
      rw [show 12 * k + 12 - 12 * k = 12 from by omega]
      rw [hdir]
      rw [show dirBytes off (f :: rest)
          = (Field.tag f ++ fmtZ 4 (fieldBytes f).length ++ fmtZ 5 off)
            ++ dirBytes (off + (fieldBytes f).length) rest from rfl]
      rw [List.take_append_of_le_length (by simp only [List.length_append]; omega)]
      exact List.take_of_length_le (by simp only [List.length_append]; omega)
    rw [hentry]
    rw [decodeEntry_round marc baseN encU l9a f off (fieldsBytes rest ++ tail0) hwf hlf
      (by omega)
      (by rw [hdrop]
          rw [show fieldsBytes (f :: rest) = fieldBytes f ++ fieldsBytes rest from rfl]
          rw [List.append_assoc])]
    simp only [exBind_ok]
    rw [ih (k + 1) (off + (fieldBytes f).length) tail0
      (fun g hg => h g (List.mem_cons_of_mem f hg))
      (by omega)
      (by rw [show 12 * (k + 1) = 12 * k + 12 from by ring]
          rw [← List.drop_drop 12 (12 * k) dirAll, hdir]
          rw [show dirBytes off (f :: rest)
              = (Field.tag f ++ fmtZ 4 (fieldBytes f).length ++ fmtZ 5 off)
                ++ dirBytes (off + (fieldBytes f).length) rest from rfl]
          have hB : (fmtZ 4 (fieldBytes f).length).length = 4 :=
            fmtZ_length_of_lt 4 _ (by norm_num) (by
              have h4 : (10 : Nat) ^ 4 = 10000 := by norm_num
              omega)
          have hC : (fmtZ 5 off).length = 5 :=
            fmtZ_length_of_lt 5 off (by norm_num) (by
              have h5 : (10 : Nat) ^ 5 = 100000 := by norm_num
              omega)
          rw [show (12 : Nat)
              = (Field.tag f ++ fmtZ 4 (fieldBytes f).length ++ fmtZ 5 off).length
            from by simp only [List.length_append]; omega]
          exact List.drop_left _ _)
      (by rw [show baseN + (off + (fieldBytes f).length)
              = (baseN + off) + (fieldBytes f).length from by ring]
          rw [← List.drop_drop (fieldBytes f).length (baseN + off) marc, hdrop]
          rw [show fieldsBytes (f :: rest) ++ tail0
              = fieldBytes f ++ (fieldsBytes rest ++ tail0) from by
            rw [show fieldsBytes (f :: rest) = fieldBytes f ++ fieldsBytes rest from rfl]
            rw [List.append_assoc]]
          exact List.drop_left _ _)]
    rfl

/-! ### Claim C1: assembly of the round trip -/

theorem drop_len_append (xs ys : List Nat) (n : Nat) (h : xs.length = n) :
    (xs ++ ys).drop n = ys := by
  rw [← h]
  exact List.drop_left xs ys

theorem decode_assembled (ldr : List Nat) (fs : List Field)
    (hl24 : ldr.length = 24)
    (hla : ∀ c ∈ ldr, c < 0x80)
    (hfs : ∀ f ∈ fs, fieldWf f = true ∧ (fieldBytes f).length ≤ 9999)
    (hfne : fs ≠ [])
    (hsz : 24 + ((dirBytes 0 fs).length + 1) + ((fieldsBytes fs).length + 1) ≤ 99999)
    (h05 : sliceN ldr 0 5
      = fmtZ 5 (24 + ((dirBytes 0 fs).length + 1) + ((fieldsBytes fs).length + 1)))
    (h1217 : sliceN ldr 12 17 = fmtZ 5 (24 + ((dirBytes 0 fs).length + 1))) :
    decode_marc (ldr ++ (dirBytes 0 fs ++ [0x1E]) ++ (fieldsBytes fs ++ [0x1D]))
        false false .latin1
      = .ok (⟨ldr, fs⟩, []) := by
  have hsl24 : sliceN (ldr ++ (dirBytes 0 fs ++ [0x1E]) ++ (fieldsBytes fs ++ [0x1D]))
      0 24 = ldr := by
    rw [sliceN_append_left _ _ _ _ (by simp only [List.length_append]; omega)]
    rw [sliceN_append_left _ _ _ _ (by omega)]
    rw [sliceN_zero]
    exact List.take_of_length_le (by omega)
  unfold decode_marc
  rw [hsl24, asciiDecode_of_ascii ldr hla]
  simp only [exBind_ok]
  rw [if_neg (by simp [hl24])]
  unfold decodeBody
  simp only []
  rw [sliceN_append_left _ _ _ _ (by simp only [List.length_append]; omega)]
  rw [sliceN_append_left _ _ _ _ (by omega)]
  rw [h1217]
  rw [show parseIntOr (fmtZ 5 (24 + ((dirBytes 0 fs).length + 1)))
      = .ok (((24 + ((dirBytes 0 fs).length + 1)) : Nat) : Int) from by
    unfold parseIntOr
    rw [parseDec_fmtZ]]
  simp only [exBind_ok]
  rw [if_neg (by omega)]
  have hlenout : (ldr ++ (dirBytes 0 fs ++ [0x1E]) ++ (fieldsBytes fs ++ [0x1D])).length
      = 24 + ((dirBytes 0 fs).length + 1) + ((fieldsBytes fs).length + 1) := by
    simp only [List.length_append, List.length_singleton, hl24]
  rw [hlenout]
  rw [if_neg (by omega)]
  rw [h05]
  rw [show parseIntOr
        (fmtZ 5 (24 + ((dirBytes 0 fs).length + 1) + ((fieldsBytes fs).length + 1)))
      = .ok (((24 + ((dirBytes 0 fs).length + 1) + ((fieldsBytes fs).length + 1))
          : Nat) : Int) from by
    unfold parseIntOr
    rw [parseDec_fmtZ]]
  simp only [exBind_ok]
  rw [if_neg (by omega)]
  rw [show ((((24 + ((dirBytes 0 fs).length + 1)) : Nat) : Int) - 1)
      = (((24 + (dirBytes 0 fs).length) : Nat) : Int) from by omega]
  rw [show (24 : Int) = ((24 : Nat) : Int) from by norm_num]
  rw [pySlice_natCast]
  rw [sliceN_as_drop (ldr ++ (dirBytes 0 fs ++ [0x1E]) ++ (fieldsBytes fs ++ [0x1D]))
    24 (24 + (dirBytes 0 fs).length)]
  rw [show 24 + (dirBytes 0 fs).length - 24 = (dirBytes 0 fs).length from by omega]
  have hdrop24 : (ldr ++ (dirBytes 0 fs ++ [0x1E]) ++ (fieldsBytes fs ++ [0x1D])).drop 24
      = (dirBytes 0 fs ++ [0x1E]) ++ (fieldsBytes fs ++ [0x1D]) := by
    rw [List.append_assoc ldr (dirBytes 0 fs ++ [0x1E]) (fieldsBytes fs ++ [0x1D])]
    exact drop_len_append _ _ 24 hl24
  rw [hdrop24]
  rw [List.append_assoc (dirBytes 0 fs) [0x1E] (fieldsBytes fs ++ [0x1D])]
  rw [List.take_append_of_le_length (Nat.le_refl _)]
  rw [List.take_length]
  rw [asciiDecode_of_ascii _ (dirBytes_ascii fs 0 (fun f hf => (hfs f hf).1))]
  simp only [exBind_ok]
  have hDL : (dirBytes 0 fs).length = 12 * fs.length :=
    dirBytes_length fs 0 hfs (by omega)
  rw [if_neg (by omega)]
  rw [show (dirBytes 0 fs).length / 12 = fs.length from by omega]
  rw [decodeFieldsGo_round _ (24 + ((dirBytes 0 fs).length + 1)) _ _ (dirBytes 0 fs)
    fs 0 0 [0x1D] hfs (by omega)
    (by simp)
    (by
      rw [show 24 + ((dirBytes 0 fs).length + 1) + 0
          = (ldr ++ (dirBytes 0 fs ++ [0x1E])).length from by
        simp only [List.length_append, List.length_singleton, hl24]
        omega]
      exact List.drop_left _ _)]
  simp only [exBind_ok]
  rw [if_neg (by intro h0; exact hfne (List.length_eq_zero.1 h0))]

/-- C1 (amended): for a record with a 24-byte ASCII leader and nonempty
well-formed fields whose content is ASCII graphic (the control/data tag
classification agreeing with the decoder's test), with every serialized
field at most 9999 bytes and the whole output at most 99999 bytes,
decoding the output of `as_marc` succeeds with no warnings and returns
exactly the original field list — tags, order, indicators and ordered
(code, value) subfield lists — and the original leader except bytes 0..5
and 12..17, which hold the recomputed record length and base address. The
claim as stated (for arbitrary well-formed content) fails for non-ASCII
Latin-1 content, which the MARC-8 translation mangles (see the
counterexample). -/
theorem C1_round_trip (r : Record) (out : List Nat)
    (hwf : recordWf r = true)
    (hfne : r.fields ≠ [])
    (hfl : ∀ f ∈ r.fields, (fieldBytes f).length ≤ 9999)
    (hm : as_marc r = some out)
    (hsize : out.length ≤ 99999) :
    decode_marc out false false .latin1
      = .ok (⟨fmtZ 5 out.length ++ sliceN r.leader 5 12
          ++ fmtZ 5 (24 + ((dirBytes 0 r.fields).length + 1)) ++ r.leader.drop 17,
          r.fields⟩, []) := by
  simp only [recordWf, Bool.and_eq_true, decide_eq_true_eq, List.all_eq_true] at hwf
  obtain ⟨⟨hl24, hla⟩, hfw⟩ := hwf
  have hfs : ∀ f ∈ r.fields, fieldWf f = true ∧ (fieldBytes f).length ≤ 9999 :=
    fun f hf => ⟨hfw f hf, hfl f hf⟩
  unfold as_marc at hm
  simp only [] at hm
  rw [asMarcGo_wf (encOf r) r.fields hfw 0] at hm
  simp only [Option.some_bind] at hm
  have hstr : ∀ c ∈ (fmtZ 5 (24 + (dirBytes 0 r.fields ++ [0x1E]).length
        + (fieldsBytes r.fields ++ [0x1D]).length)
      ++ sliceN r.leader 5 12 ++ fmtZ 5 (24 + (dirBytes 0 r.fields ++ [0x1E]).length)
      ++ r.leader.drop 17), c < 0x80 := by
    intro c hc
    rcases List.mem_append.1 hc with h1 | h1
    · rcases List.mem_append.1 h1 with h2 | h2
      · rcases List.mem_append.1 h2 with h3 | h3
        · have := fmtZ_mem _ _ c h3
          omega
        · simp only [sliceN] at h3
          exact hla c (List.mem_of_mem_take (List.mem_of_mem_drop h3))
      · have := fmtZ_mem _ _ c h2
        omega
    · exact hla c (List.mem_of_mem_drop h1)
  rw [encodeText_ascii _ _ hstr] at hm
  simp only [Option.some_bind, Option.some.injEq] at hm
  subst hm
  have hdn : (dirBytes 0 r.fields ++ [0x1E]).length
      = (dirBytes 0 r.fields).length + 1 := by
    simp
  have hfn : (fieldsBytes r.fields ++ [0x1D]).length
      = (fieldsBytes r.fields).length + 1 := by
    simp
  rw [hdn, hfn]
  have hB7 : (sliceN r.leader 5 12).length = 7 := by
    simp [sliceN, hl24]
  have hD7 : (r.leader.drop 17).length = 7 := by
    simp [hl24]
  simp only [List.length_append, List.length_singleton, hB7, hD7] at hsize
  have h5a : 5 ≤ (fmtZ 5 (24 + ((dirBytes 0 r.fields).length + 1)
      + ((fieldsBytes r.fields).length + 1))).length := by
    rw [fmtZ_length]
    omega
  have h5c : 5 ≤ (fmtZ 5 (24 + ((dirBytes 0 r.fields).length + 1))).length := by
    rw [fmtZ_length]
    omega
  have hsz : 24 + ((dirBytes 0 r.fields).length + 1)
      + ((fieldsBytes r.fields).length + 1) ≤ 99999 := by
    omega
  have hten : (10 : Nat) ^ 5 = 100000 := by norm_num
  have hA5 : (fmtZ 5 (24 + ((dirBytes 0 r.fields).length + 1)
      + ((fieldsBytes r.fields).length + 1))).length = 5 :=
    fmtZ_length_of_lt _ _ (by norm_num) (by omega)
  have hC5 : (fmtZ 5 (24 + ((dirBytes 0 r.fields).length + 1))).length = 5 :=
    fmtZ_length_of_lt _ _ (by norm_num) (by omega)
  have hNL24 : (fmtZ 5 (24 + ((dirBytes 0 r.fields).length + 1)
        + ((fieldsBytes r.fields).length + 1))
      ++ sliceN r.leader 5 12 ++ fmtZ 5 (24 + ((dirBytes 0 r.fields).length + 1))
      ++ r.leader.drop 17).length = 24 := by
    simp only [List.length_append, hA5, hB7, hC5, hD7]
  have houtlen : (fmtZ 5 (24 + ((dirBytes 0 r.fields).length + 1)
        + ((fieldsBytes r.fields).length + 1))
      ++ sliceN r.leader 5 12 ++ fmtZ 5 (24 + ((dirBytes 0 r.fields).length + 1))
      ++ r.leader.drop 17
      ++ (dirBytes 0 r.fields ++ [0x1E]) ++ (fieldsBytes r.fields ++ [0x1D])).length
      = 24 + ((dirBytes 0 r.fields).length + 1)
        + ((fieldsBytes r.fields).length + 1) := by
    simp only [List.length_append, List.length_singleton, hA5, hB7, hC5, hD7]
  rw [houtlen]
  exact decode_assembled _ r.fields hNL24
    (fun c hc => by
      rcases List.mem_append.1 hc with h1 | h1
      · rcases List.mem_append.1 h1 with h2 | h2
        · rcases List.mem_append.1 h2 with h3 | h3
          · have := fmtZ_mem _ _ c h3
            omega
          · simp only [sliceN] at h3
            exact hla c (List.mem_of_mem_take (List.mem_of_mem_drop h3))
        · have := fmtZ_mem _ _ c h2
          omega
      · exact hla c (List.mem_of_mem_drop h1))
    hfs hfne hsz
    (sliceN_quad_left _ _ _ _ hA5)
    (sliceN_quad_third _ _ _ _ hA5 hB7 hC5)

/-- Witness for C1 (amended) at a one-data-field ASCII record. -/
theorem C1_round_trip_witness :
    recordWf ⟨List.replicate 24 0x20,
        [Field.data [0x32, 0x34, 0x35] 0x20 0x20 [(0x61, [0x41])]], false⟩ = true ∧
    ([Field.data [0x32, 0x34, 0x35] 0x20 0x20 [(0x61, [0x41])]] : List Field) ≠ [] ∧
    (∀ f ∈ ([Field.data [0x32, 0x34, 0x35] 0x20 0x20 [(0x61, [0x41])]] : List Field),
      (fieldBytes f).length ≤ 9999) ∧
    as_marc ⟨List.replicate 24 0x20,
        [Field.data [0x32, 0x34, 0x35] 0x20 0x20 [(0x61, [0x41])]], false⟩
      = some ([0x30, 0x30, 0x30, 0x34, 0x34] ++ List.replicate 7 0x20
          ++ [0x30, 0x30, 0x30, 0x33, 0x37] ++ List.replicate 7 0x20
          ++ ([0x32, 0x34, 0x35, 0x30, 0x30, 0x30, 0x36, 0x30, 0x30, 0x30, 0x30, 0x30]
            ++ [0x1E])
          ++ ([0x20, 0x20, 0x1F, 0x61, 0x41, 0x1E] ++ [0x1D])) ∧
    (([0x30, 0x30, 0x30, 0x34, 0x34] ++ List.replicate 7 0x20
          ++ [0x30, 0x30, 0x30, 0x33, 0x37] ++ List.replicate 7 0x20
          ++ ([0x32, 0x34, 0x35, 0x30, 0x30, 0x30, 0x36, 0x30, 0x30, 0x30, 0x30, 0x30]
            ++ [0x1E])
          ++ ([0x20, 0x20, 0x1F, 0x61, 0x41, 0x1E] ++ [0x1D])) : List Nat).length
      ≤ 99999 ∧
    decode_marc ([0x30, 0x30, 0x30, 0x34, 0x34] ++ List.replicate 7 0x20
          ++ [0x30, 0x30, 0x30, 0x33, 0x37] ++ List.replicate 7 0x20
          ++ ([0x32, 0x34, 0x35, 0x30, 0x30, 0x30, 0x36, 0x30, 0x30, 0x30, 0x30, 0x30]
            ++ [0x1E])
          ++ ([0x20, 0x20, 0x1F, 0x61, 0x41, 0x1E] ++ [0x1D])) false false .latin1
      = .ok (⟨fmtZ 5 ([0x30, 0x30, 0x30, 0x34, 0x34] ++ List.replicate 7 0x20
            ++ [0x30, 0x30, 0x30, 0x33, 0x37] ++ List.replicate 7 0x20
            ++ ([0x32, 0x34, 0x35, 0x30, 0x30, 0x30, 0x36, 0x30, 0x30, 0x30, 0x30,
              0x30] ++ [0x1E])
            ++ ([0x20, 0x20, 0x1F, 0x61, 0x41, 0x1E] ++ [0x1D]) : List Nat).length
          ++ sliceN (List.replicate 24 0x20) 5 12
          ++ fmtZ 5 (24 + ((dirBytes 0
              [Field.data [0x32, 0x34, 0x35] 0x20 0x20 [(0x61, [0x41])]]).length + 1))
          ++ (List.replicate 24 0x20).drop 17,
          [Field.data [0x32, 0x34, 0x35] 0x20 0x20 [(0x61, [0x41])]]⟩, []) := by
  refine ⟨by decide, by decide, by decide, by decide, by decide, ?_⟩
  exact C1_round_trip
    ⟨List.replicate 24 0x20,
      [Field.data [0x32, 0x34, 0x35] 0x20 0x20 [(0x61, [0x41])]], false⟩
    ([0x30, 0x30, 0x30, 0x34, 0x34] ++ List.replicate 7 0x20
      ++ [0x30, 0x30, 0x30, 0x33, 0x37] ++ List.replicate 7 0x20
      ++ ([0x32, 0x34, 0x35, 0x30, 0x30, 0x30, 0x36, 0x30, 0x30, 0x30, 0x30, 0x30]
        ++ [0x1E])
      ++ ([0x20, 0x20, 0x1F, 0x61, 0x41, 0x1E] ++ [0x1D]))
    (by decide) (by decide) (by decide) (by decide) (by decide)

/-- C1 (counterexample to the claim as stated): a record with leader byte
9 a space and the single Latin-1 subfield value `0xE1` ("á") is
well-formed MARC, but decoding its own encoding routes the value through
the MARC-8 translation, yielding the combining code point U+0301 instead
of U+00E1: the subfield values do not round-trip. -/
theorem C1_counterexample :
    (as_marc ⟨List.replicate 24 0x20,
        [Field.data [0x32, 0x34, 0x35] 0x20 0x20 [(0x61, [0xE1])]], false⟩).bind
        (fun out => (decode_marc out false false .latin1).toOption)
      = some (⟨fmtZ 5 44 ++ List.replicate 7 0x20 ++ fmtZ 5 37
            ++ List.replicate 7 0x20,
          [Field.data [0x32, 0x34, 0x35] 0x20 0x20 [(0x61, [0x301])]]⟩, []) ∧
    ([0x301] : List Nat) ≠ [0xE1] := by
  decide

end Pymarc
